import Mathlib

/-!
# Verification of the lora-sftuner dataset pipeline

A shallow embedding, over `List Char` strings, of the dataset
normalization / deduplication / incremental-sync engine of the
`lora-sftuner` repository:

* `processing/sft_unify_and_split.py` — text normalization, dedup keys,
  role mapping, alternation enforcement, unify record filter, split engine;
* `importers/twitter_api_importer.py` — incremental API sync;
* `importers/docs_importer.py` — incremental document chunk adapter;
* `importers/sql_importer.py` — relational ancestor-chain walk;
* `importers/twitter_importer.py` — archive adapter train/eval carve-out;
* `processing/twitter_data.py` — tweet text cleaning and example builders.

Python strings are modelled as `List Char`; `re`-based transformations are
implemented as explicit fuel-indexed scanners (the fuel always dominates the
input length, so the scanners are total and kernel-evaluable).  SHA-256
digests are modelled by their preimage strings: the code only ever compares
digests for equality, and two digests are equal exactly when (up to hash
collisions) their preimages are, so digest equality is modelled as preimage
equality.  Python stdlib collaborators (`html.unescape`, `random.shuffle`,
`datetime`) are modelled by executable functions covering the behavior the
repository exercises, as documented at each definition.
-/

namespace LoraSftuner

abbrev Str := List Char

/-- Whitespace class used by Python's `\s` on the characters that occur in
this pipeline: ASCII whitespace plus no-break space (U+00A0, produced by
unescaping `&nbsp;`). -/
def isPySpace (c : Char) : Bool :=
  c = ' ' || c = '\t' || c = '\n' || c = '\x0b' || c = '\x0c' || c = '\r' ||
    c = ' '

/-- `re.sub(r"\s+", " ", t)`: collapse every maximal whitespace run to one
space.  Fuel-indexed; `fuel = s.length` suffices because every step consumes
at least one character. -/
def collapseWsAux : Nat → Str → Str
  | 0, _ => []
  | _ + 1, [] => []
  | fuel + 1, c :: rest =>
    if isPySpace c then ' ' :: collapseWsAux fuel (rest.dropWhile isPySpace)
    else c :: collapseWsAux fuel rest

def collapseWs (s : Str) : Str := collapseWsAux s.length s

/-- Python `str.strip()`: drop leading and trailing whitespace. -/
def pyStrip (s : Str) : Str :=
  ((s.dropWhile isPySpace).reverse.dropWhile isPySpace).reverse

/-- Python `str.lower()` restricted to ASCII letters (the only case-carrying
characters exercised by this pipeline). -/
def pyLower (s : Str) : Str := s.map Char.toLower

/-- One step of the tag scanner: given the text following a `<`, return the
text after the matching `>` when the regex `<[^>]+>` matches here, i.e. when
at least one non-`>` character is followed by a `>`. -/
def tagMatchEnd (rest : Str) : Option Str :=
  let body := rest.takeWhile (fun c => c ≠ '>')
  let after := rest.dropWhile (fun c => c ≠ '>')
  match after with
  | [] => none
  | _ :: tl => if body = [] then none else some tl

/-- `re.sub(r"<[^>]+>", " ", t)`: replace HTML tags by a single space,
scanning left to right.  Fuel-indexed; `fuel = s.length` suffices because
every step consumes at least one character. -/
def stripTagsAux : Nat → Str → Str
  | 0, _ => []
  | _ + 1, [] => []
  | fuel + 1, c :: rest =>
    if c = '<' then
      match tagMatchEnd rest with
      | some after => ' ' :: stripTagsAux fuel after
      | none => '<' :: stripTagsAux fuel rest
    else c :: stripTagsAux fuel rest

def stripTags (s : Str) : Str := stripTagsAux s.length s

/-- Named HTML entities recognized by the model of `html.unescape` (the
common entities; Python's table is the full HTML5 list, of which these are
the ones this data pipeline can encounter). -/
def namedEntity (body : Str) : Option Char :=
  if body = ['a', 'm', 'p'] then some '&'
  else if body = ['l', 't'] then some '<'
  else if body = ['g', 't'] then some '>'
  else if body = ['q', 'u', 'o', 't'] then some '"'
  else if body = ['a', 'p', 'o', 's'] then some '\x27'
  else if body = ['n', 'b', 's', 'p'] then some ' '
  else none

def hexDigitVal (c : Char) : Option Nat :=
  if '0' ≤ c ∧ c ≤ '9' then some (c.toNat - '0'.toNat)
  else if 'a' ≤ c ∧ c ≤ 'f' then some (c.toNat - 'a'.toNat + 10)
  else if 'A' ≤ c ∧ c ≤ 'F' then some (c.toNat - 'A'.toNat + 10)
  else none

def decDigitVal (c : Char) : Option Nat :=
  if '0' ≤ c ∧ c ≤ '9' then some (c.toNat - '0'.toNat) else none

def digitsVal (base : Nat) (dig : Char → Option Nat) : Str → Option Nat
  | [] => some 0
  | c :: rest => do
    let d ← dig c
    let r ← digitsVal base dig rest
    pure (d * base ^ rest.length + r)

/-- Conversion of a numeric character-reference value to a `Char`;
out-of-range values map to U+FFFD as in HTML5. -/
def charOfCodepoint (n : Nat) : Char :=
  if n.isValidChar then Char.ofNat n else '�'

/-- Value of a character reference body (`#10`, `#x1F600`, or a named
entity). -/
def entityChar (body : Str) : Option Char :=
  match body with
  | '#' :: 'x' :: ds =>
    if ds = [] then none else (digitsVal 16 hexDigitVal ds).map charOfCodepoint
  | '#' :: 'X' :: ds =>
    if ds = [] then none else (digitsVal 16 hexDigitVal ds).map charOfCodepoint
  | '#' :: ds =>
    if ds = [] then none else (digitsVal 10 decDigitVal ds).map charOfCodepoint
  | body => namedEntity body

/-- Model of Python `html.unescape` (stdlib collaborator): at each `&`, if
the run up to the next `;` is a recognized character reference, substitute
it; otherwise leave the `&` as is.  Fuel-indexed; `fuel = s.length`
suffices. -/
def htmlUnescapeAux : Nat → Str → Str
  | 0, _ => []
  | _ + 1, [] => []
  | fuel + 1, c :: rest =>
    if c = '&' then
      let body := rest.takeWhile (fun d => d ≠ ';' ∧ d ≠ '&')
      let after := rest.dropWhile (fun d => d ≠ ';' ∧ d ≠ '&')
      match after with
      | ';' :: tl =>
        match entityChar body with
        | some ch => ch :: htmlUnescapeAux fuel tl
        | none => '&' :: htmlUnescapeAux fuel rest
      | _ => '&' :: htmlUnescapeAux fuel rest
    else c :: htmlUnescapeAux fuel rest

def htmlUnescape (s : Str) : Str := htmlUnescapeAux s.length s

/-- `_norm_text` from `processing/sft_unify_and_split.py`: remove HTML tags,
unescape entities, collapse whitespace, strip. -/
def normText (t : Str) : Str :=
  pyStrip (collapseWs (htmlUnescape (stripTags t)))

/-! ## Unification engine (`processing/sft_unify_and_split.py`) -/

/-- Normalized message roles. -/
inductive Role where
  | system
  | user
  | assistant
deriving DecidableEq, Repr

/-- A normalized message. -/
structure Msg where
  role : Role
  content : Str
deriving DecidableEq, Repr

/-- A raw JSON message: both `role` and `content` keys may be absent. -/
structure RawMsg where
  role : Option Str
  content : Option Str
deriving DecidableEq, Repr

/-- `_map_role`: strip/lowercase the raw role; `assistant` and `model` map to
`assistant`, `user` and `system` map to themselves, everything else
(including a missing role) maps to `user`. -/
def mapRole (role : Option Str) : Role :=
  let r := pyLower (pyStrip (role.getD []))
  if r = "assistant".toList ∨ r = "model".toList then .assistant
  else if r = "user".toList then .user
  else if r = "system".toList then .system
  else .user

/-- Step 1 of `_enforce_alternation`: merge adjacent same-role turns,
concatenating contents with a blank-line separator and stripping the
result. -/
def mergeAdjacentGo (cur : Msg) : List Msg → List Msg
  | [] => [cur]
  | m :: rest =>
    if cur.role = m.role then
      mergeAdjacentGo ⟨cur.role, pyStrip (cur.content ++ '\n' :: '\n' :: m.content)⟩ rest
    else cur :: mergeAdjacentGo m rest

def mergeAdjacent : List Msg → List Msg
  | [] => []
  | m :: rest => mergeAdjacentGo m rest

/-- Strict `user, assistant, user, assistant, ...` role pattern starting from
expected role `r`. -/
def rolesAlternate : Role → List Msg → Bool
  | _, [] => true
  | r, m :: rest =>
    m.role = r && rolesAlternate (if r = .user then .assistant else .user) rest

/-- `_enforce_alternation`: merge adjacent same-role turns; prepend a
synthetic `user` turn `"..."` when the dialog is empty or opens on
`assistant`; drop the trailing turn when it is not `assistant`; split off an
optional leading `system` turn; require the remainder to be a non-empty,
even-length, strictly alternating `user, assistant, ...` sequence; require
at least 2 total messages. -/
def enforceAlternation (cleaned : List Msg) : Option (List Msg) :=
  if cleaned = [] then none
  else
    let m1 := mergeAdjacent cleaned
    let m2 :=
      if m1 = [] ∨ (m1.head?.map Msg.role) = some .assistant then
        ⟨.user, "...".toList⟩ :: m1
      else m1
    let m3 :=
      if (m2.getLast?.map Msg.role) ≠ some .assistant then m2.dropLast else m2
    match m3 with
    | [] => none
    | first :: rest =>
      if first.role = .system then
        if rest ≠ [] ∧ rest.length % 2 = 0 ∧ rolesAlternate .user rest then
          if (first :: rest).length ≥ 2 then some (first :: rest) else none
        else none
      else
        if (first :: rest) ≠ [] ∧ (first :: rest).length % 2 = 0 ∧
            rolesAlternate .user (first :: rest) then
          if (first :: rest).length ≥ 2 then some (first :: rest) else none
        else none

/-- The cleaned message list built by `_normalize_row`: keep raw messages
with truthy (non-empty) content, mapping the role and normalizing the
text. -/
def cleanedMsgs (msgs : List RawMsg) : List Msg :=
  msgs.filterMap fun m =>
    match m.content with
    | some c => if c = [] then none else some ⟨mapRole m.role, normText c⟩
    | none => none

/-- The retweet rejection test of `_normalize_row`: the last cleaned message
is an assistant message whose stripped, lowercased content starts with
`"rt"`. -/
def rtRejected (cleaned : List Msg) : Bool :=
  match cleaned.getLast? with
  | some m =>
    m.role = .assistant && "rt".toList.isPrefixOf (pyLower (pyStrip m.content))
  | none => false

/-- `_normalize_row` restricted to the message list (the metadata keys kept
by `keep_keys` are irrelevant to the verified claims).  `none` models a
missing or non-list `messages` key. -/
def normalizeRowMsgs (row : Option (List RawMsg)) : Option (List Msg) :=
  match row with
  | none => none
  | some msgs =>
    let cleaned := cleanedMsgs msgs
    if rtRejected cleaned then none
    else enforceAlternation cleaned

/-- `_is_generic_prompt`: the lowercased prompt is exactly `"..."` or starts
with `"write a"`. -/
def isGenericPrompt (p : Str) : Bool :=
  pyLower p = "...".toList || "write a".toList.isPrefixOf (pyLower p)

/-- `_hash_for_dedup`, with the SHA-256 digest modelled by its preimage: the
lowercased normalized content of the last assistant message, or, when no
assistant message exists, the lowercased space-joined normalized dialog. -/
def dedupKey (msgs : List Msg) : Str :=
  match msgs.reverse.find? (fun m => m.role = .assistant) with
  | some m => pyLower (normText m.content)
  | none =>
    pyLower (List.intercalate " ".toList (msgs.map fun m => normText m.content))

/-- The per-record decision of `unify_datasets` before deduplication:
normalize the row, then (optionally) drop it when its final user turn is a
generic prompt. -/
def unifyNormalize (dropGeneric : Bool) (row : Option (List RawMsg)) :
    Option (List Msg) :=
  match normalizeRowMsgs row with
  | none => none
  | some msgs =>
    if dropGeneric then
      match (msgs.filter fun m => m.role = .user).getLast? with
      | some m => if isGenericPrompt m.content then none else some msgs
      | none => some msgs
    else some msgs

/-- One step of the dedup fold of `unify_datasets`: skip the record when its
key was already seen, otherwise keep it and remember the key. -/
def dedupStep (acc : List (List Msg) × List Str) (msgs : List Msg) :
    List (List Msg) × List Str :=
  let h := dedupKey msgs
  if h ∈ acc.2 then acc else (acc.1 ++ [msgs], h :: acc.2)

/-- The normalize / filter / dedup loop of `unify_datasets`, from a given
starting accumulator. -/
def unifyLoop (dropGeneric : Bool) (acc : List (List Msg) × List Str) :
    List (Option (List RawMsg)) → List (List Msg) × List Str
  | [] => acc
  | row :: rows =>
    match unifyNormalize dropGeneric row with
    | none => unifyLoop dropGeneric acc rows
    | some msgs => unifyLoop dropGeneric (dedupStep acc msgs) rows

/-- The records kept by `unify_datasets` (before the optional shuffle and the
JSONL write, which only reorder / serialize them). -/
def unifyKept (dropGeneric : Bool) (rows : List (Option (List RawMsg))) :
    List (List Msg) :=
  (unifyLoop dropGeneric ([], []) rows).1

/-! ## Seeded shuffle

`unify_datasets` and `split_dataset` shuffle with `random.Random(seed)`, the
stdlib Mersenne-Twister PRNG (an external collaborator).  It is modelled by a
deterministic seeded Fisher-Yates permutation driven by a linear congruential
generator; none of the verified claims depend on which permutation a given
seed denotes, only on determinism and on the output being a permutation of
the input. -/

def lcgNext (s : Nat) : Nat := (s * 1103515245 + 12345) % 2147483648

def shuffleGo {α : Type} : Nat → Nat → List α → List α
  | 0, _, _ => []
  | fuel + 1, s, l =>
    match l[lcgNext s % l.length]? with
    | some x => x :: shuffleGo fuel (lcgNext s) (l.eraseIdx (lcgNext s % l.length))
    | none => []

def shuffleSeed {α : Type} (seed : Nat) (l : List α) : List α :=
  shuffleGo l.length seed l

/-- The record list written by `unify_datasets`: the kept records, shuffled
when requested. -/
def unifyOutput (shuffle : Bool) (seed : Nat) (dropGeneric : Bool)
    (rows : List (Option (List RawMsg))) : List (List Msg) :=
  if shuffle then shuffleSeed seed (unifyKept dropGeneric rows)
  else unifyKept dropGeneric rows

/-! ## Split engine (`split_dataset`) and archive carve-out -/

/-- Python `round()` on the exact rational value: round half to even.
(The Python code rounds a float product; the model computes the product
exactly in `ℚ` and applies the same round-half-to-even rule.)  Computed on
the numerator / denominator with integer arithmetic: `f = ⌊q⌋` and the
fractional part `r = q - f` satisfies `r < 1/2 ↔ 2·(num - f·den) < den`. -/
def pyRound (q : ℚ) : ℤ :=
  let d : ℤ := (q.den : ℤ)
  let f : ℤ := q.num.fdiv d
  let r2 : ℤ := 2 * (q.num - f * d)
  if r2 < d then f
  else if d < r2 then f + 1
  else if f % 2 = 0 then f else f + 1

/-- `n * eval_pct` as a rational, built with `mkRat` so that it evaluates by
kernel reduction; `ratMulNat_eq` (below) identifies it with `(n : ℚ) * q`. -/
def ratMulNat (n : Nat) (q : ℚ) : ℚ := mkRat (n * q.num) q.den

/-- `split_dataset`: seeded shuffle, then a tail carve-out of
`max(1, round(n * eval_pct))` rows, capped at `n - 1` (or `0` when `n = 1`);
`none` models the early return on an empty input. -/
def splitDataset {α : Type} (seed : Nat) (evalPct : ℚ) (rows : List α) :
    Option (List α × List α) :=
  if rows.isEmpty then none
  else
    let shuffled := shuffleSeed seed rows
    let n := shuffled.length
    let nEval1 : ℤ := max 1 (pyRound (ratMulNat n evalPct))
    let nEval : Nat := if n > 1 then min nEval1.toNat (n - 1) else 0
    if nEval > 0 then some (shuffled.take (n - nEval), shuffled.drop (n - nEval))
    else some (shuffled, [])

/-- The train/eval carve-out of `process_archive`
(`importers/twitter_importer.py`): `n_eval = round(n * eval_pct)` with no
cap; `rows[:-n_eval]` / `rows[-n_eval:]` slices, with Python slice clamping;
`none` models the early return on an empty example list. -/
def archiveSplit {α : Type} (evalPct : ℚ) (rows : List α) :
    Option (List α × List α) :=
  if rows.isEmpty then none
  else
    let nEval : ℤ := pyRound (ratMulNat rows.length evalPct)
    if nEval > 0 then
      some (rows.take ((rows.length - nEval).toNat),
            rows.drop ((rows.length - nEval).toNat))
    else some (rows, [])

/-! ## Relational ancestor walk (`importers/sql_importer.py`) -/

/-- A relational row, restricted to the columns `_ancestors` reads: its
identity and its parent pointer (`none` models SQL NULL). -/
structure SqlRow where
  id : Int
  parent : Option Int
deriving DecidableEq, Repr

/-- The `by_id` dict, as an association list (first match wins). -/
def idxLookup (idx : List (Int × SqlRow)) (k : Int) : Option SqlRow :=
  (idx.find? fun p => p.1 = k).map Prod.snd

/-- The loop-exit test of `_ancestors`:
`if not pid or pid == 0 or pid == cur[id_col]: break`.  Returns the parent
identity to follow, or `none` when the walk stops here. -/
def parentStep (cur : SqlRow) : Option Int :=
  match cur.parent with
  | none => none
  | some p => if p = 0 ∨ p = cur.id then none else some p

/-- The `while cur and cur[id_col] not in seen` loop of `_ancestors`,
fuel-indexed (the Python loop needs no fuel; `ancestorsAux_fuel_stable`
proves the fuel below never runs out, which is the termination claim). -/
def ancestorsAux (idx : List (Int × SqlRow)) :
    Nat → List Int → SqlRow → List SqlRow
  | 0, _, _ => []
  | fuel + 1, seen, cur =>
    if cur.id ∈ seen then []
    else
      cur ::
        match parentStep cur with
        | none => []
        | some pid =>
          match idxLookup idx pid with
          | none => []
          | some nxt => ancestorsAux idx fuel (cur.id :: seen) nxt

def ancestorsFuel (idx : List (Int × SqlRow)) : Nat := idx.length + 2

/-- `_ancestors`: the chain `[root, ..., row]`, root-first. -/
def ancestors (idx : List (Int × SqlRow)) (row : SqlRow) : List SqlRow :=
  (ancestorsAux idx (ancestorsFuel idx) [] row).reverse

/-! ## Tweet text cleaning (`processing/twitter_data.py`) -/

/-- The model of Python's `\w` on the character ranges this pipeline
handles: ASCII letters, digits, underscore, and the Hebrew block (the
repository's data is English/Hebrew). -/
def isWordChar (c : Char) : Bool :=
  ('A' ≤ c && c ≤ 'Z') || ('a' ≤ c && c ≤ 'z') || ('0' ≤ c && c ≤ '9') ||
    c = '_' || ('֐' ≤ c && c ≤ '׿')

/-- `re.sub(r"https?://\S+", "", t)`: drop URLs (the literal scheme followed
by a non-empty run of non-whitespace).  Fuel-indexed. -/
def urlHere (s : Str) : Option Str :=
  let tryTail := fun (tl : Str) =>
    match tl.takeWhile (fun c => !isPySpace c) with
    | [] => none
    | _ :: _ => some (tl.dropWhile fun c => !isPySpace c)
  match s with
  | 'h' :: 't' :: 't' :: 'p' :: 's' :: ':' :: '/' :: '/' :: tl => tryTail tl
  | 'h' :: 't' :: 't' :: 'p' :: ':' :: '/' :: '/' :: tl => tryTail tl
  | _ => none

def removeUrlsAux : Nat → Str → Str
  | 0, _ => []
  | _ + 1, [] => []
  | fuel + 1, c :: rest =>
    match urlHere (c :: rest) with
    | some after => removeUrlsAux fuel after
    | none => c :: removeUrlsAux fuel rest

def removeUrls (s : Str) : Str := removeUrlsAux s.length s

/-- `re.sub(r"[#@]\w+", "", t)`: drop hashtags and mentions (marker followed
by a non-empty word-character run).  Fuel-indexed. -/
def removeHashAtsAux : Nat → Str → Str
  | 0, _ => []
  | _ + 1, [] => []
  | fuel + 1, c :: rest =>
    if c = '#' ∨ c = '@' then
      match rest.takeWhile isWordChar with
      | [] => c :: removeHashAtsAux fuel rest
      | _ :: _ => removeHashAtsAux fuel (rest.dropWhile isWordChar)
    else c :: removeHashAtsAux fuel rest

def removeHashAts (s : Str) : Str := removeHashAtsAux s.length s

/-- Match of `re.sub(r'this tweet was edited at\s.*$', '', t, flags=re.I)` at
the current position: the case-insensitive marker, one whitespace character,
then the rest of the line, which must reach the end of the string (`$` also
matches just before a final newline).  Returns the text after the match
(i.e. the kept final newline, if any). -/
def editedHere (s : Str) : Option Str :=
  if pyLower (s.take 24) = "this tweet was edited at".toList then
    match s.drop 24 with
    | c :: rest =>
      if isPySpace c then
        match rest.dropWhile (fun d => d ≠ '\n') with
        | [] => some []
        | ['\n'] => some ['\n']
        | _ => none
      else none
    | [] => none
  else none

def removeEditedAux : Nat → Str → Str
  | 0, _ => []
  | _ + 1, [] => []
  | fuel + 1, c :: rest =>
    match editedHere (c :: rest) with
    | some tail => tail
    | none => c :: removeEditedAux fuel rest

def removeEdited (s : Str) : Str := removeEditedAux s.length s

/-- `t.replace("‏", "").replace("‎", "")`. -/
def removeDirMarks (s : Str) : Str :=
  s.filter fun c => c ≠ '‏' && c ≠ '‎'

/-- `t.replace("\r\n", "\n").replace("\r", "\n")`. -/
def normalizeNewlines : Str → Str
  | [] => []
  | '\r' :: '\n' :: rest => '\n' :: normalizeNewlines rest
  | '\r' :: rest => '\n' :: normalizeNewlines rest
  | c :: rest => c :: normalizeNewlines rest

/-- `clean_text` from `processing/twitter_data.py`: unescape entities, drop
URLs, drop hashtag/mention tokens, drop a trailing "this tweet was edited
at ..." line, drop direction marks, normalize newlines, collapse whitespace,
strip. -/
def cleanText (t : Str) : Str :=
  if t = [] then []
  else
    pyStrip (collapseWs (normalizeNewlines (removeDirMarks (removeEdited
      (removeHashAts (removeUrls (htmlUnescape t)))))))

/-- Lexicographic code-point comparison, as Python `<` on `str`. -/
def strLtB : Str → Str → Bool
  | [], [] => false
  | [], _ :: _ => true
  | _ :: _, [] => false
  | x :: xs, y :: ys => if x < y then true else if y < x then false else strLtB xs ys

/-! ## Style examples and topic keywords -/

/-- `make_style_example` from `processing/twitter_data.py`, restricted to its
`messages` field: a `user` prompt turn and a configurable-role answer
turn. -/
def makeStyleMsgs (prompt text roleAssistant : Str) : List RawMsg :=
  [⟨some "user".toList, some prompt⟩, ⟨some roleAssistant, some text⟩]

/-- `_topic_keywords` word scanner: a word is a letter (ASCII or Hebrew)
followed by at least two word-class/apostrophe/hyphen characters
(`[A-Za-z֐-׿][\w’׳״'-]{2,}`).  Fuel-indexed. -/
def isTopicStart (c : Char) : Bool :=
  ('A' ≤ c && c ≤ 'Z') || ('a' ≤ c && c ≤ 'z') || ('֐' ≤ c && c ≤ '׿')

def isTopicCont (c : Char) : Bool :=
  isWordChar c || c = '’' || c = '׳' || c = '״' || c = '\x27' || c = '-'

def findTopicWordsAux : Nat → Str → List Str
  | 0, _ => []
  | _ + 1, [] => []
  | fuel + 1, c :: rest =>
    if isTopicStart c then
      match rest.takeWhile isTopicCont with
      | [] => findTopicWordsAux fuel rest
      | [_] => findTopicWordsAux fuel rest
      | d :: e :: run => (c :: d :: e :: run) :: findTopicWordsAux fuel (rest.dropWhile isTopicCont)
    else findTopicWordsAux fuel rest

def findTopicWords (s : Str) : List Str := findTopicWordsAux s.length s

/-- First-occurrence deduplication (the model of Python's unordered
`list({...})`; the claims do not depend on set iteration order). -/
def dedupKeepFirst (seen : List Str) : List Str → List Str
  | [] => []
  | w :: ws =>
    if w ∈ seen then dedupKeepFirst seen ws
    else w :: dedupKeepFirst (w :: seen) ws

/-- `_topic_keywords` from `importers/docs_importer.py`: drop URLs, collect
lowercased distinct words, cap at 8, defaulting to `["general"]`. -/
def topicKeywords (t : Str) : List Str :=
  let ws := (findTopicWords (removeUrls t)).map pyLower
  let out := (dedupKeepFirst [] ws).take 8
  if out.isEmpty then ["general".toList] else out

/-- The prompt of `_make_style_example` in `importers/docs_importer.py`:
`f"Write a paragraph in my signature style about: {', '.join(topics)}."`. -/
def docsPrompt (txt : Str) : Str :=
  "Write a paragraph in my signature style about: ".toList ++
    List.intercalate ", ".toList (topicKeywords txt) ++ ".".toList

/-- The `messages` field of a document style example (the answer role is the
hard-coded `"model"`). -/
def docsExampleMsgs (txt : Str) : List RawMsg :=
  makeStyleMsgs (docsPrompt txt) txt "model".toList

/-! ## Timestamp arithmetic (`datetime`, stdlib collaborator)

Model of `datetime.fromisoformat` / `+ timedelta(seconds=1)` / `isoformat`
as used by `sync_tweets`: the ISO-8601 subset
`YYYY-MM-DD[(T| )HH[:MM[:SS[.f{1,6}]]]][±HH:MM]` with field validation;
inputs outside it, like the real `ValueError`, make `isoPlusOneSecond`
return `none` (the code then falls back to the raw timestamp). -/

structure PyDateTime where
  year : Nat
  month : Nat
  day : Nat
  hour : Nat
  minute : Nat
  second : Nat
  usec : Nat
  offMin : Option Int
deriving DecidableEq, Repr

def isDigitCh (c : Char) : Bool := '0' ≤ c && c ≤ '9'

def readFixedNatAux (acc : Nat) : Nat → Str → Option (Nat × Str)
  | 0, s => some (acc, s)
  | _ + 1, [] => none
  | n + 1, c :: rest =>
    if isDigitCh c then readFixedNatAux (acc * 10 + (c.toNat - 48)) n rest
    else none

def readFixedNat (n : Nat) (s : Str) : Option (Nat × Str) :=
  readFixedNatAux 0 n s

def expectCh (c : Char) : Str → Option Str
  | d :: rest => if d = c then some rest else none
  | [] => none

def natOfDigits (ds : Str) : Nat :=
  ds.foldl (fun acc c => acc * 10 + (c.toNat - 48)) 0

/-- Days in a month, with the Gregorian leap rule. -/
def daysInMonth (y m : Nat) : Nat :=
  if m = 2 then
    if y % 4 = 0 ∧ (y % 100 ≠ 0 ∨ y % 400 = 0) then 29 else 28
  else if m = 4 ∨ m = 6 ∨ m = 9 ∨ m = 11 then 30
  else 31

/-- Parse the optional trailing UTC offset (`±HH:MM`) and require the end of
input. -/
def parseOffAndEnd (s : Str) : Option (Option Int) :=
  match s with
  | [] => some none
  | sign :: rest =>
    if sign = '+' ∨ sign = '-' then do
      let (oh, s1) ← readFixedNat 2 rest
      let s2 ← expectCh ':' s1
      let (om, s3) ← readFixedNat 2 s2
      if s3 = [] ∧ oh ≤ 23 ∧ om ≤ 59 then
        let mins : Int := oh * 60 + om
        pure (some (if sign = '-' then -mins else mins))
      else none
    else none

/-- Parse the optional fractional seconds (1–6 digits, scaled to
microseconds). -/
def parseFrac (s : Str) : Option (Nat × Str) :=
  match s with
  | '.' :: rest =>
    let ds := rest.takeWhile isDigitCh
    if 1 ≤ ds.length ∧ ds.length ≤ 6 then
      some (natOfDigits ds * 10 ^ (6 - ds.length), rest.dropWhile isDigitCh)
    else none
  | _ => some (0, s)

/-- Parse the time-of-day part (after the `T`/space separator). -/
def parseTimePart (y mo d : Nat) (s : Str) : Option PyDateTime := do
  let (h, s1) ← readFixedNat 2 s
  if h ≤ 23 then
    match s1 with
    | ':' :: s2 => do
      let (mi, s3) ← readFixedNat 2 s2
      if mi ≤ 59 then
        match s3 with
        | ':' :: s4 => do
          let (ss, s5) ← readFixedNat 2 s4
          if ss ≤ 59 then do
            let (us, s6) ← parseFrac s5
            let off ← parseOffAndEnd s6
            pure ⟨y, mo, d, h, mi, ss, us, off⟩
          else none
        | s3 => do
          let off ← parseOffAndEnd s3
          pure ⟨y, mo, d, h, mi, 0, 0, off⟩
      else none
    | s1 => do
      let off ← parseOffAndEnd s1
      pure ⟨y, mo, d, h, 0, 0, 0, off⟩
  else none

/-- Model of `datetime.fromisoformat`. -/
def parseIso (s : Str) : Option PyDateTime := do
  let (y, s1) ← readFixedNat 4 s
  let s2 ← expectCh '-' s1
  let (mo, s3) ← readFixedNat 2 s2
  let s4 ← expectCh '-' s3
  let (d, s5) ← readFixedNat 2 s4
  if 1 ≤ y ∧ 1 ≤ mo ∧ mo ≤ 12 ∧ 1 ≤ d ∧ d ≤ daysInMonth y mo then
    match s5 with
    | [] => pure ⟨y, mo, d, 0, 0, 0, 0, none⟩
    | sep :: rest =>
      if sep = 'T' ∨ sep = ' ' then parseTimePart y mo d rest
      else none
  else none

/-- `dt + timedelta(seconds=1)`, with calendar rollover; `none` models the
(uncatchable past year 9999) overflow. -/
def addOneSecond (dt : PyDateTime) : Option PyDateTime :=
  if dt.second + 1 ≤ 59 then some { dt with second := dt.second + 1 }
  else if dt.minute + 1 ≤ 59 then some { dt with second := 0, minute := dt.minute + 1 }
  else if dt.hour + 1 ≤ 23 then some { dt with second := 0, minute := 0, hour := dt.hour + 1 }
  else if dt.day + 1 ≤ daysInMonth dt.year dt.month then
    some { dt with second := 0, minute := 0, hour := 0, day := dt.day + 1 }
  else if dt.month + 1 ≤ 12 then
    some { dt with second := 0, minute := 0, hour := 0, day := 1, month := dt.month + 1 }
  else if dt.year + 1 ≤ 9999 then
    some { dt with second := 0, minute := 0, hour := 0, day := 1, month := 1,
                   year := dt.year + 1 }
  else none

def padNat (w n : Nat) : Str :=
  let ds := Nat.toDigits 10 n
  List.replicate (w - ds.length) '0' ++ ds

/-- Model of `datetime.isoformat()` followed by `.replace("+00:00", "Z")`:
the `+00:00` offset prints as `Z`, other offsets as `±HH:MM`, naive
datetimes without a suffix; microseconds print only when non-zero. -/
def formatIso (dt : PyDateTime) : Str :=
  padNat 4 dt.year ++ "-".toList ++ padNat 2 dt.month ++ "-".toList ++
    padNat 2 dt.day ++ "T".toList ++ padNat 2 dt.hour ++ ":".toList ++
    padNat 2 dt.minute ++ ":".toList ++ padNat 2 dt.second ++
    (if dt.usec = 0 then [] else '.' :: padNat 6 dt.usec) ++
    (match dt.offMin with
     | none => []
     | some off =>
       if off = 0 then "Z".toList
       else
         (if off < 0 then '-' else '+') ::
           padNat 2 (off.natAbs / 60) ++ ":".toList ++ padNat 2 (off.natAbs % 60))

/-- `newest_time.replace("Z", "+00:00")`. -/
def zReplace (s : Str) : Str :=
  s.flatMap fun c => if c = 'Z' then "+00:00".toList else [c]

/-- The checkpoint-advance computation of `sync_tweets`:
`fromisoformat(newest.replace("Z", "+00:00")) + 1s`, re-serialized; `none`
models the `ValueError` path (the caller falls back to `newest`
verbatim). -/
def isoPlusOneSecond (raw : Str) : Option Str := do
  let dt ← parseIso (zReplace raw)
  let dt2 ← addOneSecond dt
  pure (formatIso dt2)

/-! ## Incremental API sync (`importers/twitter_api_importer.py`) -/

/-- A fetched Twitter API v2 tweet object, restricted to the requested
fields (`tweet.fields=id,text,created_at,source,referenced_tweets,lang`);
v2 objects carry no `id_str`/`full_text` keys, so `unify_tweet`'s fallbacks
resolve to `str(t.get("id", ""))` and `t.get("text")`. -/
structure ApiTweet where
  id : Option Str
  text : Str
  createdAt : Option Str
  source : Option Str
  hasQuotedRef : Bool
deriving DecidableEq, Repr

/-- A line of the output JSONL file as seen by `_scan_existing_ids`:
`none` is an unparseable (or non-object) line, `some none` a record without
a `tweet_id` key, `some (some tid)` a record with one. -/
abbrev OutLine := Option (Option Str)

/-- `_scan_existing_ids`: collect `str(json.loads(line).get("tweet_id"))`
per parseable line (a missing key stringifies to `"None"`); unparseable
lines are skipped. -/
def scanIds : List OutLine → List Str
  | [] => []
  | none :: rest => scanIds rest
  | some none :: rest => "None".toList :: scanIds rest
  | some (some tid) :: rest => tid :: scanIds rest

structure SyncCfg where
  minLen : Nat
  excludeSources : List Str
  noQuotes : Bool
  roleAssistant : Str
deriving Repr

/-- A style example as appended by `sync_tweets` (its `tweet_id` field plus
its `messages`, cf. `make_style_example`). -/
structure StyleExample where
  tweetId : Str
  userContent : Str
  assistantRole : Str
  assistantContent : Str
deriving DecidableEq, Repr

/-- The body of the `for tweet in all_new_tweets` loop of `sync_tweets`:
skip when the id was already emitted, when the quote / source / length
filters reject; otherwise append the style example, record the id, and
advance the maximum observed `created_at` (string comparison). -/
def syncStep (cfg : SyncCfg) (acc : List Str × List StyleExample × Str)
    (t : ApiTweet) : List Str × List StyleExample × Str :=
  let ids := acc.1
  let exs := acc.2.1
  let newest := acc.2.2
  let tid := t.id.getD []
  if tid ∈ ids then acc
  else if cfg.noQuotes ∧ t.hasQuotedRef then acc
  else if (match t.source with
           | some s => decide (s ∈ cfg.excludeSources)
           | none => false) then acc
  else
    let text := cleanText t.text
    if text.length < cfg.minLen then acc
    else
      let ex : StyleExample :=
        ⟨tid, "Write a tweet in my style.".toList, cfg.roleAssistant, text⟩
      let newest2 :=
        match t.createdAt with
        | some c => if c ≠ [] ∧ strLtB newest c then c else newest
        | none => newest
      (tid :: ids, exs ++ [ex], newest2)

def processTweets (cfg : SyncCfg) (ids : List Str) (start : Str)
    (ts : List ApiTweet) : List Str × List StyleExample × Str :=
  ts.foldl (syncStep cfg) (ids, [], start)

/-- The `state.get("start_time", "1970-01-01T00:00:00Z")` default. -/
def startOf (st : Option Str) : Str :=
  match st with
  | some s => s
  | none => "1970-01-01T00:00:00Z".toList

/-- `sync_tweets`, as a pure function of the existing output lines, the
persisted `start_time`, and the fetched tweets: returns the output file
contents and the persisted `start_time` after the run.  When nothing
survives, the function returns before touching either file; otherwise it
appends the new example lines and persists
`(max observed created_at) + 1 second`, falling back to the raw maximum on
a parse failure. -/
def syncTweets (cfg : SyncCfg) (outLines : List OutLine) (st : Option Str)
    (fetched : List ApiTweet) : List OutLine × Option Str :=
  let ids := scanIds outLines
  let res := processTweets cfg ids (startOf st) fetched
  let exs := res.2.1
  let newest := res.2.2
  if exs.isEmpty then (outLines, st)
  else
    let nextStart :=
      match isoPlusOneSecond newest with
      | some s => s
      | none => newest
    (outLines ++ exs.map (fun e => some (some e.tweetId)), some nextStart)

/-! ## Incremental document chunk adapter (`importers/docs_importer.py`) -/

/-- `_norm_text_for_hash` (and `_sha256_text`, with the digest modelled by
its preimage): unescape entities, collapse whitespace, strip, lowercase. -/
def normTextForHash (t : Str) : Str :=
  pyLower (pyStrip (collapseWs (htmlUnescape t)))

def isHorizWs (c : Char) : Bool :=
  c = ' ' || c = '\t' || c = '\x0c' || c = '\x0b'

/-- `re.sub(r"[ \t\f\v]+", " ", s)`.  Fuel-indexed. -/
def collapseHorizAux : Nat → Str → Str
  | 0, _ => []
  | _ + 1, [] => []
  | fuel + 1, c :: rest =>
    if isHorizWs c then ' ' :: collapseHorizAux fuel (rest.dropWhile isHorizWs)
    else c :: collapseHorizAux fuel rest

def collapseHoriz (s : Str) : Str := collapseHorizAux s.length s

/-- `re.sub(r"\n{3,}", "\n\n", s)`.  Fuel-indexed. -/
def squeezeNewlinesAux : Nat → Str → Str
  | 0, _ => []
  | _ + 1, [] => []
  | fuel + 1, c :: rest =>
    if c = '\n' then
      let run := rest.takeWhile (fun d => d = '\n')
      let tail := rest.dropWhile (fun d => d = '\n')
      if 2 ≤ run.length then '\n' :: '\n' :: squeezeNewlinesAux fuel tail
      else c :: run ++ squeezeNewlinesAux fuel tail
    else c :: squeezeNewlinesAux fuel rest

def squeezeNewlines (s : Str) : Str := squeezeNewlinesAux s.length s

/-- `_norm_ws` from `importers/docs_importer.py`. -/
def normWsDoc (s : Str) : Str :=
  pyStrip (squeezeNewlines (collapseHoriz (normalizeNewlines s)))

/-- Suffix of a whitespace run after its last newline (used by the
`re.split(r"\n\s*\n", text)` model: the greedy separator extends through the
last newline of the run). -/
def afterLastNl (w : Str) : Str :=
  (w.reverse.takeWhile fun c => c ≠ '\n').reverse

/-- `re.split(r"\n\s*\n", text)` scanner: a separator is a newline whose
following whitespace run contains another newline; the separator consumes
through the last newline of the run.  Fuel-indexed. -/
def splitParasAux : Nat → Str → Str → List Str
  | 0, acc, _ => [acc.reverse]
  | _ + 1, acc, [] => [acc.reverse]
  | fuel + 1, acc, c :: rest =>
    if c = '\n' then
      let w := rest.takeWhile isPySpace
      let t := rest.dropWhile isPySpace
      if '\n' ∈ w then acc.reverse :: splitParasAux fuel [] (afterLastNl w ++ t)
      else splitParasAux fuel ('\n' :: acc) rest
    else splitParasAux fuel (c :: acc) rest

/-- `_split_paragraphs`: split on blank-line separators, strip each part,
drop empties. -/
def splitParagraphs (text : Str) : List Str :=
  ((splitParasAux text.length [] text).map pyStrip).filter fun p => p ≠ []

/-- A per-file state entry `{mtime, size, chunks}`. -/
structure DocEntry where
  mtime : Int
  size : Nat
  chunks : List Str
deriving DecidableEq, Repr

/-- An enumerated file: its resolved path key, stat data, and the text
extraction outcome (`none` models a reader exception, reported and
skipped). -/
structure DocFile where
  key : Str
  mtime : Int
  size : Nat
  text : Option Str
deriving DecidableEq, Repr

def alistGet? {β : Type} (m : List (Str × β)) (k : Str) : Option β :=
  (m.find? fun p => p.1 = k).map Prod.snd

def alistUpsert {β : Type} (k : Str) (v : β) : List (Str × β) → List (Str × β)
  | [] => [(k, v)]
  | (k', v') :: rest =>
    if k' = k then (k, v) :: rest else (k', v') :: alistUpsert k v rest

def insertSorted (x : Str) : List Str → List Str
  | [] => [x]
  | y :: ys => if strLtB y x then y :: insertSorted x ys else x :: y :: ys

/-- `sorted(list(new_hashes))`. -/
def sortStrs (l : List Str) : List Str := l.foldr insertSorted []

/-- The per-paragraph loop of `process_documents`: length filter, chunk-hash
lookup against the stored entry, appending a new example only for unseen
hashes; returns the refreshed hash set and the appended examples. -/
def docParaLoop (minChars maxChars : Nat) (oldChunks : List Str)
    (acc : List Str × List (List RawMsg)) : List Str → List Str × List (List RawMsg)
  | [] => acc
  | par :: pars =>
    if par.length < minChars ∨ maxChars < par.length then
      docParaLoop minChars maxChars oldChunks acc pars
    else
      let h := normTextForHash par
      if h ∈ oldChunks then
        docParaLoop minChars maxChars oldChunks (h :: acc.1, acc.2) pars
      else
        docParaLoop minChars maxChars oldChunks
          (h :: acc.1, acc.2 ++ [docsExampleMsgs par]) pars

/-- The per-file body of `process_documents`: skip unchanged files (stat
match), skip unreadable or empty files, otherwise chunk and refresh the
state entry. -/
def processDocFile (minChars maxChars : Nat)
    (acc : List (Str × DocEntry) × List (List RawMsg)) (f : DocFile) :
    List (Str × DocEntry) × List (List RawMsg) :=
  let st := acc.1
  let skip :=
    match alistGet? st f.key with
    | some e => e.mtime = f.mtime && e.size = f.size
    | none => false
  if skip then acc
  else
    match f.text with
    | none => acc
    | some text =>
      if text = [] then acc
      else
        let oldChunks :=
          match alistGet? st f.key with
          | some e => e.chunks
          | none => []
        let paras := splitParagraphs (normWsDoc text)
        let res := docParaLoop minChars maxChars oldChunks ([], []) paras
        (alistUpsert f.key ⟨f.mtime, f.size, sortStrs res.1⟩ st,
          acc.2 ++ res.2)

/-- `process_documents`, as a pure function of the loaded state and the
enumerated files: returns the per-file state map after the run and the
example lines appended to the output file. -/
def processDocuments (minChars maxChars : Nat) (deleteMissing : Bool)
    (st0 : List (Str × DocEntry)) (files : List DocFile) :
    List (Str × DocEntry) × List (List RawMsg) :=
  let res := files.foldl (processDocFile minChars maxChars) (st0, [])
  let st2 :=
    if deleteMissing then res.1.filter (fun p => p.1 ∈ files.map DocFile.key)
    else res.1
  (st2, res.2)

/-- "Strip at most one leading `system` message" (the shape of claim C1). -/
def stripLeadSystem : List Msg → List Msg
  | [] => []
  | m :: rest => if m.role = .system then rest else m :: rest

def flipR (r : Role) : Role := if r = .user then .assistant else .user

/-- Analysis predicate: a character that is not whitespace, `<`, or `&`
(such characters pass through every stage of `_norm_text` unchanged). -/
def plainChar (c : Char) : Bool :=
  !(c.toNat = 32 || c.toNat = 9 || c.toNat = 10 || c.toNat = 11 ||
    c.toNat = 12 || c.toNat = 13 || c.toNat = 160 || c.toNat = 60 ||
    c.toNat = 38)

/-- Analysis predicate: every whitespace character in the string is a plain
space and no two whitespace characters are adjacent (such strings are fixed
points of whitespace collapsing). -/
def wsOkB : Str → Bool
  | [] => true
  | [c] => !isPySpace c || c == ' '
  | c :: d :: rest =>
    (!isPySpace c || (c == ' ' && !isPySpace d)) && wsOkB (d :: rest)

/-!
## Theorems

First the supporting lemmas, then one theorem per claim (with a witness
where the theorem carries hypotheses).
-/

theorem flipR_ne_system (r : Role) : flipR r ≠ .system := by
  cases r <;> simp [flipR]

theorem flipR_flipR {r : Role} (h : r ≠ .system) : flipR (flipR r) = r := by
  cases r with
  | system => exact absurd rfl h
  | user => rfl
  | assistant => rfl

theorem rolesAlternate_last (l : List Msg) :
    ∀ r, r ≠ .system → rolesAlternate r l = true → l ≠ [] →
      l.getLast?.map Msg.role = some (if l.length % 2 = 1 then r else flipR r) := by
  induction l with
  | nil => intro r _ _ h; exact absurd rfl h
  | cons m rest ih =>
    intro r hrs halt _
    simp only [rolesAlternate, Bool.and_eq_true, decide_eq_true_eq] at halt
    obtain ⟨hrole, hrest⟩ := halt
    cases rest with
    | nil => simp [List.getLast?, hrole]
    | cons m2 rest2 =>
      have hne : (m2 :: rest2 : List Msg) ≠ [] := by simp
      have hflip : (if r = Role.user then Role.assistant else Role.user) = flipR r := rfl
      rw [hflip] at hrest
      have ihres := ih (flipR r) (flipR_ne_system r) hrest hne
      have hlast : (m :: m2 :: rest2).getLast? = (m2 :: rest2).getLast? :=
        List.getLast?_cons_cons
      rw [hlast, ihres]
      rcases Nat.mod_two_eq_zero_or_one rest2.length with h1 | h1
      · have e1 : (rest2.length + 1) % 2 = 1 := by omega
        have e2 : (rest2.length + 1 + 1) % 2 = 0 := by omega
        simp only [List.length_cons, e1, e2]
        simp
      · have e1 : (rest2.length + 1) % 2 = 0 := by omega
        have e2 : (rest2.length + 1 + 1) % 2 = 1 := by omega
        simp only [List.length_cons, e1, e2]
        simp [flipR_flipR hrs]

theorem rolesAlternate_even_last (l : List Msg)
    (h : rolesAlternate .user l = true) (hne : l ≠ [])
    (hev : l.length % 2 = 0) : l.getLast?.map Msg.role = some .assistant := by
  have := rolesAlternate_last l .user (by simp) h hne
  rw [hev] at this
  simpa [flipR] using this

theorem enforceAlternation_shape {cleaned out : List Msg}
    (h : enforceAlternation cleaned = some out) :
    2 ≤ out.length ∧
    rolesAlternate .user (stripLeadSystem out) = true ∧
    stripLeadSystem out ≠ [] ∧
    (stripLeadSystem out).length % 2 = 0 ∧
    (stripLeadSystem out).getLast?.map Msg.role = some .assistant ∧
    out.getLast?.map Msg.role = some .assistant := by
  unfold enforceAlternation at h
  split at h
  · exact absurd h (by simp)
  · dsimp only at h
    split at h
    · exact absurd h (by simp)
    case _ first rest _ =>
      split at h
      case isTrue hsys =>
        split at h
        case isFalse => exact absurd h (by simp)
        case isTrue hcond =>
          split at h
          case isFalse => exact absurd h (by simp)
          case isTrue hlen =>
            obtain ⟨hne, hev, halt⟩ := hcond
            cases h
            have hstrip : stripLeadSystem (first :: rest) = rest := by
              simp [stripLeadSystem, hsys]
            refine ⟨hlen, ?_, ?_, ?_, ?_, ?_⟩
            · rw [hstrip]; exact halt
            · rw [hstrip]; exact hne
            · rw [hstrip]; exact hev
            · rw [hstrip]; exact rolesAlternate_even_last rest halt hne hev
            · have : (first :: rest).getLast? = rest.getLast? := by
                cases rest with
                | nil => exact absurd rfl hne
                | cons b xs => simp [List.getLast?_cons_cons]
              rw [this]
              exact rolesAlternate_even_last rest halt hne hev
      case isFalse hsys =>
        split at h
        case isFalse => exact absurd h (by simp)
        case isTrue hcond =>
          split at h
          case isFalse => exact absurd h (by simp)
          case isTrue hlen =>
            obtain ⟨hne, hev, halt⟩ := hcond
            cases h
            have hstrip : stripLeadSystem (first :: rest) = first :: rest := by
              simp [stripLeadSystem, hsys]
            refine ⟨hlen, ?_, ?_, ?_, ?_, ?_⟩
            · rw [hstrip]; exact halt
            · rw [hstrip]; exact hne
            · rw [hstrip]; exact hev
            · rw [hstrip]; exact rolesAlternate_even_last _ halt hne hev
            · exact rolesAlternate_even_last _ halt hne hev

theorem normalizeRowMsgs_shape {row : Option (List RawMsg)} {out : List Msg}
    (h : normalizeRowMsgs row = some out) :
    ∃ cleaned, enforceAlternation cleaned = some out := by
  unfold normalizeRowMsgs at h
  cases row with
  | none => exact absurd h (by simp)
  | some msgs =>
    dsimp only at h
    split at h
    · exact absurd h (by simp)
    · exact ⟨cleanedMsgs msgs, h⟩

theorem unifyNormalize_eq_some {dg : Bool} {row : Option (List RawMsg)}
    {out : List Msg} (h : unifyNormalize dg row = some out) :
    normalizeRowMsgs row = some out := by
  unfold unifyNormalize at h
  cases hn : normalizeRowMsgs row with
  | none => rw [hn] at h; exact absurd h (by simp)
  | some msgs =>
    rw [hn] at h
    dsimp only at h
    split at h
    · split at h
      · split at h
        · exact absurd h (by simp)
        · cases h; rfl
      · cases h; rfl
    · cases h; rfl

theorem unifyLoop_mem (P : List Msg → Prop) (dg : Bool)
    (hstep : ∀ row m, unifyNormalize dg row = some m → P m) :
    ∀ (rows : List (Option (List RawMsg))) (acc : List (List Msg) × List Str),
      (∀ x ∈ acc.1, P x) → ∀ x ∈ (unifyLoop dg acc rows).1, P x := by
  intro rows
  induction rows with
  | nil => intro acc hacc x hx; exact hacc x hx
  | cons row rows ih =>
    intro acc hacc x hx
    rw [unifyLoop] at hx
    cases hn : unifyNormalize dg row with
    | none =>
      rw [hn] at hx
      exact ih acc hacc x hx
    | some m =>
      rw [hn] at hx
      refine ih (dedupStep acc m) ?_ x hx
      intro y hy
      simp only [dedupStep] at hy
      by_cases hk : dedupKey m ∈ acc.2
      · rw [if_pos hk] at hy
        exact hacc y hy
      · rw [if_neg hk] at hy
        rcases List.mem_append.mp hy with h1 | h2
        · exact hacc y h1
        · rw [List.mem_singleton.mp h2]
          exact hstep row m hn

theorem unifyKept_mem {dg : Bool} {rows : List (Option (List RawMsg))}
    {x : List Msg} (hx : x ∈ unifyKept dg rows) :
    ∃ row, unifyNormalize dg row = some x := by
  classical
  by_contra hcon
  push_neg at hcon
  have := unifyLoop_mem (fun m => ∃ row, unifyNormalize dg row = some m) dg
    (fun row m hm => ⟨row, hm⟩) rows ([], []) (by simp) x hx
  obtain ⟨row, hrow⟩ := this
  exact (hcon row) hrow

theorem shuffleGo_mem {α : Type} :
    ∀ (fuel s : Nat) (l : List α) (x : α), x ∈ shuffleGo fuel s l → x ∈ l := by
  intro fuel
  induction fuel with
  | zero => intro s l x hx; simp [shuffleGo] at hx
  | succ fuel ih =>
    intro s l x hx
    rw [shuffleGo] at hx
    cases hget : l[lcgNext s % l.length]? with
    | none => rw [hget] at hx; simp at hx
    | some y =>
      rw [hget] at hx
      rcases List.mem_cons.mp hx with rfl | hmem
      · obtain ⟨hlt, rfl⟩ := List.getElem?_eq_some_iff.mp hget
        exact List.getElem_mem hlt
      · exact (List.eraseIdx_sublist l (lcgNext s % l.length)).mem
          (ih (lcgNext s) _ x hmem)

theorem shuffleSeed_mem {α : Type} {s : Nat} {l : List α} {x : α}
    (hx : x ∈ shuffleSeed s l) : x ∈ l :=
  shuffleGo_mem l.length s l x hx

theorem unifyOutput_mem {sh : Bool} {seed : Nat} {dg : Bool}
    {rows : List (Option (List RawMsg))} {x : List Msg}
    (hx : x ∈ unifyOutput sh seed dg rows) : x ∈ unifyKept dg rows := by
  unfold unifyOutput at hx
  split at hx
  · exact shuffleSeed_mem hx
  · exact hx

/-- C1.  Every record written by `unify_datasets` satisfies the alternation
invariant: after stripping at most one leading `system` message, the turns
strictly alternate `user, assistant, ...` (an even number of them, hence
ending on an `assistant` message), and the full sequence has at least 2
messages.  Records that `_enforce_alternation` cannot repair to this shape
yield `none` there, are rejected by `_normalize_row`, and never reach the
output — which is what membership in `unifyOutput` ranges over. -/
theorem unify_alternation_invariant_C1
    (sh : Bool) (seed : Nat) (dg : Bool) (rows : List (Option (List RawMsg)))
    (msgs : List Msg) (hmem : msgs ∈ unifyOutput sh seed dg rows) :
    2 ≤ msgs.length ∧
    rolesAlternate .user (stripLeadSystem msgs) = true ∧
    stripLeadSystem msgs ≠ [] ∧
    (stripLeadSystem msgs).length % 2 = 0 ∧
    msgs.getLast?.map Msg.role = some .assistant := by
  have hkept := unifyOutput_mem hmem
  obtain ⟨row, hrow⟩ := unifyKept_mem hkept
  obtain ⟨cleaned, hclean⟩ := normalizeRowMsgs_shape (unifyNormalize_eq_some hrow)
  obtain ⟨h1, h2, h3, h4, _, h6⟩ := enforceAlternation_shape hclean
  exact ⟨h1, h2, h3, h4, h6⟩

/-- Witness for C1 at a concrete input: the spec §8.7 record
`[{"role": "model", "content": "Hello"}, {"role": "user", "content": "hi"}]`
is written (repaired to `[user "...", assistant "Hello"]`) and satisfies the
invariant. -/
theorem unify_alternation_invariant_C1_witness :
    [Msg.mk .user "...".toList, Msg.mk .assistant "Hello".toList] ∈
      unifyOutput false 0 false
        [some [⟨some "model".toList, some "Hello".toList⟩,
               ⟨some "user".toList, some "hi".toList⟩]] ∧
    2 ≤ ([Msg.mk .user "...".toList, Msg.mk .assistant "Hello".toList] : List Msg).length ∧
    rolesAlternate .user (stripLeadSystem
      [Msg.mk .user "...".toList, Msg.mk .assistant "Hello".toList]) = true := by
  refine ⟨by decide, ?_⟩
  have := unify_alternation_invariant_C1 false 0 false
    [some [⟨some "model".toList, some "Hello".toList⟩,
           ⟨some "user".toList, some "hi".toList⟩]]
    [Msg.mk .user "...".toList, Msg.mk .assistant "Hello".toList] (by decide)
  exact ⟨this.1, this.2.1⟩

/-- C2 counterexample.  The record
`[user "hi", assistant "RTX is great"]` is rejected by `_normalize_row`
although its final assistant content does not start with the `"RT @"`
marker (and alternation enforcement alone would have accepted the record):
the code tests `startswith("rt")`, not `startswith("rt @")`.  This refutes
the "only records whose final assistant turn starts with that marker are
rejected on this ground" half of the claim. -/
theorem rt_filter_C2_counterexample :
    normalizeRowMsgs (some [⟨some "user".toList, some "hi".toList⟩,
      ⟨some "assistant".toList, some "RTX is great".toList⟩]) = none ∧
    "rt @".toList.isPrefixOf (pyLower (normText "RTX is great".toList)) = false ∧
    enforceAlternation (cleanedMsgs
      [⟨some "user".toList, some "hi".toList⟩,
       ⟨some "assistant".toList, some "RTX is great".toList⟩]) =
      some [Msg.mk .user "hi".toList, Msg.mk .assistant "RTX is great".toList] := by
  decide

/-- C2 amended.  The retweet rejection of `_normalize_row` fires exactly when
the last cleaned message is an assistant message whose stripped, lowercased,
normalized content starts with `"rt"` (a broader prefix than the claimed
`"RT @"` marker, and tested only on the last message, not on the final
assistant turn when later non-assistant turns follow); in every other case
the record's fate is decided by alternation enforcement alone. -/
theorem rt_filter_C2_amended (msgs : List RawMsg) :
    (rtRejected (cleanedMsgs msgs) = true →
       normalizeRowMsgs (some msgs) = none) ∧
    (rtRejected (cleanedMsgs msgs) = false →
       normalizeRowMsgs (some msgs) = enforceAlternation (cleanedMsgs msgs)) := by
  constructor
  · intro h
    unfold normalizeRowMsgs
    simp [h]
  · intro h
    unfold normalizeRowMsgs
    simp [h]

/-- Witness for C2's amended theorem: a record whose last assistant content
starts with `"rt"` is rejected, and one whose content does not is passed on
to alternation enforcement. -/
theorem rt_filter_C2_amended_witness :
    normalizeRowMsgs (some [⟨some "user".toList, some "hi".toList⟩,
      ⟨some "assistant".toList, some "rt hello".toList⟩]) = none ∧
    normalizeRowMsgs (some [⟨some "user".toList, some "hi".toList⟩,
      ⟨some "assistant".toList, some "fine".toList⟩]) =
      enforceAlternation (cleanedMsgs
        [⟨some "user".toList, some "hi".toList⟩,
         ⟨some "assistant".toList, some "fine".toList⟩]) :=
  ⟨(rt_filter_C2_amended _).1 (by decide), (rt_filter_C2_amended _).2 (by decide)⟩

theorem stripTagsAux_id :
    ∀ (fuel : Nat) (s : Str), s.length ≤ fuel → '<' ∉ s →
      stripTagsAux fuel s = s := by
  intro fuel
  induction fuel with
  | zero =>
    intro s hlen _
    cases s with
    | nil => rfl
    | cons c rest => simp at hlen
  | succ fuel ih =>
    intro s hlen hne
    cases s with
    | nil => rfl
    | cons c rest =>
      have hc : c ≠ '<' := fun h => hne (h ▸ List.mem_cons_self c rest)
      have hr : '<' ∉ rest := fun h => hne (List.mem_cons_of_mem c h)
      have hlen2 : rest.length ≤ fuel := Nat.le_of_succ_le_succ hlen
      simp only [stripTagsAux, if_neg hc]
      rw [ih rest hlen2 hr]

theorem stripTags_id {s : Str} (h : '<' ∉ s) : stripTags s = s :=
  stripTagsAux_id s.length s (Nat.le_refl _) h

theorem dedupKey_last_assistant (pre : List Msg) (a : Str) :
    dedupKey (pre ++ [⟨.assistant, a⟩]) = pyLower (normText a) := by
  unfold dedupKey
  rw [List.reverse_append]
  simp only [List.reverse_cons, List.reverse_nil, List.nil_append,
    List.cons_append, List.find?]
  simp

theorem dedupStep_key_mono {acc : List (List Msg) × List Str} {m : List Msg}
    {k : Str} (h : k ∈ acc.2) : k ∈ (dedupStep acc m).2 := by
  simp only [dedupStep]
  split
  · exact h
  · exact List.mem_cons_of_mem _ h

theorem dedupStep_key_self (acc : List (List Msg) × List Str) (m : List Msg) :
    dedupKey m ∈ (dedupStep acc m).2 := by
  simp only [dedupStep]
  split
  case isTrue h => exact h
  case isFalse h => exact List.mem_cons_self _ _

theorem unifyLoop_cons (dg : Bool) (acc : List (List Msg) × List Str)
    (row : Option (List RawMsg)) (rows : List (Option (List RawMsg))) :
    unifyLoop dg acc (row :: rows) =
      match unifyNormalize dg row with
      | none => unifyLoop dg acc rows
      | some m => unifyLoop dg (dedupStep acc m) rows := rfl

theorem unifyLoop_append (dg : Bool) :
    ∀ (xs ys : List (Option (List RawMsg))) (acc : List (List Msg) × List Str),
      unifyLoop dg acc (xs ++ ys) = unifyLoop dg (unifyLoop dg acc xs) ys := by
  intro xs
  induction xs with
  | nil => intro ys acc; rfl
  | cons x xs ih =>
    intro ys acc
    rw [List.cons_append, unifyLoop_cons, unifyLoop_cons]
    cases unifyNormalize dg x with
    | none => exact ih ys acc
    | some m => exact ih ys (dedupStep acc m)

theorem unifyLoop_skip (dg : Bool) {row' : Option (List RawMsg)}
    {r' : List Msg} (hrow : unifyNormalize dg row' = some r') :
    ∀ (l2 l3 : List (Option (List RawMsg))) (acc : List (List Msg) × List Str),
      dedupKey r' ∈ acc.2 →
      unifyLoop dg acc (l2 ++ row' :: l3) = unifyLoop dg acc (l2 ++ l3) := by
  intro l2
  induction l2 with
  | nil =>
    intro l3 acc hk
    rw [List.nil_append, List.nil_append, unifyLoop_cons, hrow]
    have : dedupStep acc r' = acc := by
      simp only [dedupStep]
      exact if_pos hk
    dsimp only
    rw [this]
  | cons x l2 ih =>
    intro l3 acc hk
    rw [List.cons_append, List.cons_append, unifyLoop_cons, unifyLoop_cons]
    cases unifyNormalize dg x with
    | none => exact ih l3 acc hk
    | some m => exact ih l3 (dedupStep acc m) (dedupStep_key_mono hk)

/-- C3.  (i) For any two records whose final assistant contents are tag-free
and agree after entity unescaping, whitespace collapsing, stripping and
lowercasing — i.e. differ only by HTML entities, case, or whitespace
run-length — `_hash_for_dedup` computes identical keys, whatever the earlier
turns are; (ii) in `unify_datasets`, when a later record's key equals an
earlier record's key, the output is exactly as if the later record were
absent (first-seen wins, in input order); (iii) for a record with no
assistant turn the key is computed from the full space-joined normalized
dialog. -/
theorem dedup_key_C3 :
    (∀ (a b : Str) (pre pre2 : List Msg), '<' ∉ a → '<' ∉ b →
       pyLower (pyStrip (collapseWs (htmlUnescape a))) =
         pyLower (pyStrip (collapseWs (htmlUnescape b))) →
       dedupKey (pre ++ [⟨.assistant, a⟩]) = dedupKey (pre2 ++ [⟨.assistant, b⟩])) ∧
    (∀ (dg : Bool) (l1 l2 l3 : List (Option (List RawMsg)))
       (row row' : Option (List RawMsg)) (r r' : List Msg),
       unifyNormalize dg row = some r → unifyNormalize dg row' = some r' →
       dedupKey r = dedupKey r' →
       unifyKept dg (l1 ++ (row :: (l2 ++ (row' :: l3)))) =
         unifyKept dg (l1 ++ (row :: (l2 ++ l3)))) ∧
    (∀ msgs : List Msg, (∀ m ∈ msgs, m.role ≠ .assistant) →
       dedupKey msgs =
         pyLower (List.intercalate " ".toList
           (msgs.map fun m => normText m.content))) := by
  refine ⟨?_, ?_, ?_⟩
  · intro a b pre pre2 ha hb heq
    rw [dedupKey_last_assistant, dedupKey_last_assistant]
    unfold normText
    rw [stripTags_id ha, stripTags_id hb]
    exact heq
  · intro dg l1 l2 l3 row row' r r' hrow hrow' hkey
    unfold unifyKept
    have e1 : unifyLoop dg ([], []) (l1 ++ (row :: (l2 ++ (row' :: l3)))) =
        unifyLoop dg (dedupStep (unifyLoop dg ([], []) l1) r)
          (l2 ++ (row' :: l3)) := by
      rw [unifyLoop_append, unifyLoop_cons, hrow]
    have e2 : unifyLoop dg ([], []) (l1 ++ (row :: (l2 ++ l3))) =
        unifyLoop dg (dedupStep (unifyLoop dg ([], []) l1) r) (l2 ++ l3) := by
      rw [unifyLoop_append, unifyLoop_cons, hrow]
    have hk : dedupKey r' ∈ (dedupStep (unifyLoop dg ([], []) l1) r).2 := by
      rw [← hkey]
      exact dedupStep_key_self _ _
    rw [e1, e2, unifyLoop_skip dg hrow' l2 l3 _ hk]
  · intro msgs hno
    unfold dedupKey
    have : msgs.reverse.find? (fun m => decide (m.role = Role.assistant)) = none := by
      rw [List.find?_eq_none]
      intro m hm
      simp [hno m (List.mem_reverse.mp hm)]
    rw [this]

/-- Witness for C3 at concrete inputs: `"Hello &amp; World"` and
`"hello  & world"` collapse to one key; the unify output of a stream with a
duplicate-keyed later record equals the output without it; a record with no
assistant turn hashes the joined dialog. -/
theorem dedup_key_C3_witness :
    dedupKey [Msg.mk .assistant "Hello &amp; World".toList] =
      dedupKey [Msg.mk .assistant "hello  & world".toList] ∧
    unifyKept false
      [some [⟨some "user".toList, some "hi".toList⟩,
             ⟨some "assistant".toList, some "Hello".toList⟩,
             ⟨some "user".toList, some "bye".toList⟩,
             ⟨some "assistant".toList, some " hello ".toList⟩],
       some [⟨some "user".toList, some "hey".toList⟩,
             ⟨some "assistant".toList, some "HELLO".toList⟩]] =
      unifyKept false
        [some [⟨some "user".toList, some "hi".toList⟩,
               ⟨some "assistant".toList, some "Hello".toList⟩,
               ⟨some "user".toList, some "bye".toList⟩,
               ⟨some "assistant".toList, some " hello ".toList⟩]] ∧
    dedupKey [Msg.mk .user "a  b".toList] =
      pyLower (List.intercalate " ".toList
        ([Msg.mk .user "a  b".toList].map fun m => normText m.content)) := by
  refine ⟨?_, ?_, ?_⟩
  · have := dedup_key_C3.1 "Hello &amp; World".toList "hello  & world".toList
      [] [] (by decide) (by decide) (by decide)
    simpa using this
  · have := dedup_key_C3.2.1 false [] [] []
      (some [⟨some "user".toList, some "hi".toList⟩,
             ⟨some "assistant".toList, some "Hello".toList⟩,
             ⟨some "user".toList, some "bye".toList⟩,
             ⟨some "assistant".toList, some " hello ".toList⟩])
      (some [⟨some "user".toList, some "hey".toList⟩,
             ⟨some "assistant".toList, some "HELLO".toList⟩])
      [Msg.mk .user "hi".toList, Msg.mk .assistant "Hello".toList,
       Msg.mk .user "bye".toList, Msg.mk .assistant "hello".toList]
      [Msg.mk .user "hey".toList, Msg.mk .assistant "HELLO".toList]
      (by decide) (by decide) (by decide)
    simpa using this
  · exact dedup_key_C3.2.2 [Msg.mk .user "a  b".toList] (by decide)

theorem mapRole_user : mapRole (some "user".toList) = .user := by decide

theorem cleanedMsgs_style (prompt text roleA : Str) (hp : prompt ≠ []) :
    cleanedMsgs (makeStyleMsgs prompt text roleA) =
      Msg.mk .user (normText prompt) ::
        (if text = [] then []
         else [Msg.mk (mapRole (some roleA)) (normText text)]) := by
  unfold cleanedMsgs makeStyleMsgs
  simp only [List.filterMap]
  rw [if_neg hp, mapRole_user]
  by_cases ht : text = []
  · simp [ht]
  · simp [ht]

theorem styleExample_dropped (prompt text roleA : Str)
    (hgen : isGenericPrompt (normText prompt) = true) :
    unifyNormalize true (some (makeStyleMsgs prompt text roleA)) = none := by
  have hp : prompt ≠ [] := by
    intro h
    rw [h] at hgen
    exact absurd hgen (by decide)
  have hclean := cleanedMsgs_style prompt text roleA hp
  unfold unifyNormalize normalizeRowMsgs
  dsimp only
  rw [hclean]
  by_cases ht : text = []
  · rw [if_pos ht]
    simp [rtRejected, enforceAlternation, mergeAdjacent, mergeAdjacentGo]
  · rw [if_neg ht]
    cases hr : mapRole (some roleA) with
    | system =>
      simp [rtRejected, enforceAlternation, mergeAdjacent, mergeAdjacentGo]
    | user =>
      simp [rtRejected, enforceAlternation, mergeAdjacent, mergeAdjacentGo]
    | assistant =>
      by_cases hrt : ['r', 't'] <+: pyLower (pyStrip (normText text))
      · simp [rtRejected, hrt]
      · simp [rtRejected, hrt, enforceAlternation, mergeAdjacent,
          mergeAdjacentGo, rolesAlternate, hgen]

theorem htmlUnescapeAux_id :
    ∀ (fuel : Nat) (s : Str), s.length ≤ fuel → '&' ∉ s →
      htmlUnescapeAux fuel s = s := by
  intro fuel
  induction fuel with
  | zero =>
    intro s hlen _
    cases s with
    | nil => rfl
    | cons c rest => simp at hlen
  | succ fuel ih =>
    intro s hlen hne
    cases s with
    | nil => rfl
    | cons c rest =>
      have hc : c ≠ '&' := fun h => hne (h ▸ List.mem_cons_self c rest)
      have hr : '&' ∉ rest := fun h => hne (List.mem_cons_of_mem c h)
      have hlen2 : rest.length ≤ fuel := Nat.le_of_succ_le_succ hlen
      simp only [htmlUnescapeAux, if_neg hc]
      rw [ih rest hlen2 hr]

theorem htmlUnescape_id {s : Str} (h : '&' ∉ s) : htmlUnescape s = s :=
  htmlUnescapeAux_id s.length s (Nat.le_refl _) h

theorem wsOkB_tail {c : Char} {rest : Str} (h : wsOkB (c :: rest) = true) :
    wsOkB rest = true := by
  cases rest with
  | nil => rfl
  | cons d rest2 =>
    rw [wsOkB, Bool.and_eq_true] at h
    exact h.2

theorem wsOkB_head_space {c : Char} {rest : Str}
    (h : wsOkB (c :: rest) = true) (hsp : isPySpace c = true) :
    c = ' ' ∧ ∀ d ∈ rest.head?, isPySpace d = false := by
  cases rest with
  | nil =>
    rw [wsOkB, hsp, Bool.not_true, Bool.false_or, beq_iff_eq] at h
    exact ⟨h, by simp⟩
  | cons d rest2 =>
    rw [wsOkB, Bool.and_eq_true, hsp, Bool.not_true, Bool.false_or,
      Bool.and_eq_true, beq_iff_eq, Bool.not_eq_true'] at h
    refine ⟨h.1.1, ?_⟩
    intro x hx
    simp only [List.head?_cons, Option.mem_some_iff] at hx
    rw [← hx]
    exact h.1.2

theorem collapseWsAux_id :
    ∀ (fuel : Nat) (s : Str), s.length ≤ fuel → wsOkB s = true →
      collapseWsAux fuel s = s := by
  intro fuel
  induction fuel with
  | zero =>
    intro s hlen _
    cases s with
    | nil => rfl
    | cons c rest => simp at hlen
  | succ fuel ih =>
    intro s hlen hok
    cases s with
    | nil => rfl
    | cons c rest =>
      have hlen2 : rest.length ≤ fuel := Nat.le_of_succ_le_succ hlen
      have htail := wsOkB_tail hok
      by_cases hsp : isPySpace c = true
      · obtain ⟨rfl, hhead⟩ := wsOkB_head_space hok hsp
        have hdrop : rest.dropWhile isPySpace = rest := by
          cases rest with
          | nil => rfl
          | cons d rest2 =>
            have := hhead d (by simp)
            exact List.dropWhile_cons_of_neg (by simp [this])
        simp only [collapseWsAux, if_pos hsp, hdrop]
        rw [ih rest hlen2 htail]
      · simp only [collapseWsAux, if_neg hsp]
        rw [ih rest hlen2 htail]

theorem collapseWs_id {s : Str} (h : wsOkB s = true) : collapseWs s = s :=
  collapseWsAux_id s.length s (Nat.le_refl _) h

theorem dropWhile_id_of_head {s : Str}
    (h : ∀ c ∈ s.head?, isPySpace c = false) : s.dropWhile isPySpace = s := by
  cases s with
  | nil => rfl
  | cons c rest =>
    have := h c (by simp)
    exact List.dropWhile_cons_of_neg (by simp [this])

theorem pyStrip_id {s : Str}
    (h1 : ∀ c ∈ s.head?, isPySpace c = false)
    (h2 : ∀ c ∈ s.getLast?, isPySpace c = false) : pyStrip s = s := by
  unfold pyStrip
  rw [dropWhile_id_of_head h1]
  rw [dropWhile_id_of_head (by simpa [List.head?_reverse] using h2)]
  exact List.reverse_reverse s

/-- A string of plain characters and isolated spaces, starting and ending on
a non-space character and containing no tags or entities, passes through
`_norm_text` unchanged. -/
theorem normText_id {s : Str}
    (hlt : '<' ∉ s) (hamp : '&' ∉ s) (hws : wsOkB s = true)
    (h1 : ∀ c ∈ s.head?, isPySpace c = false)
    (h2 : ∀ c ∈ s.getLast?, isPySpace c = false) : normText s = s := by
  unfold normText
  rw [stripTags_id hlt, htmlUnescape_id hamp, collapseWs_id hws,
    pyStrip_id h1 h2]

theorem plainChar_of_ranges {c : Char}
    (h : (65 ≤ c.toNat ∧ c.toNat ≤ 90) ∨ (97 ≤ c.toNat ∧ c.toNat ≤ 122) ∨
      (48 ≤ c.toNat ∧ c.toNat ≤ 57) ∨ c.toNat = 95 ∨
      (1424 ≤ c.toNat ∧ c.toNat ≤ 1535) ∨ c.toNat = 8217 ∨ c.toNat = 1523 ∨
      c.toNat = 1524 ∨ c.toNat = 39 ∨ c.toNat = 45) : plainChar c = true := by
  simp only [plainChar, Bool.not_eq_true', Bool.or_eq_false_iff,
    decide_eq_false_iff_not]
  omega

theorem topic_plain {c : Char}
    (h : isTopicStart c = true ∨ isTopicCont c = true) :
    plainChar c = true := by
  rcases h with h | h
  · unfold isTopicStart at h
    rcases Bool.or_eq_true_iff.mp h with h | h
    · rcases Bool.or_eq_true_iff.mp h with h | h
      · obtain ⟨h1, h2⟩ := Bool.and_eq_true_iff.mp h
        exact plainChar_of_ranges (Or.inl
          ⟨of_decide_eq_true h1, of_decide_eq_true h2⟩)
      · obtain ⟨h1, h2⟩ := Bool.and_eq_true_iff.mp h
        exact plainChar_of_ranges (Or.inr (Or.inl
          ⟨of_decide_eq_true h1, of_decide_eq_true h2⟩))
    · obtain ⟨h1, h2⟩ := Bool.and_eq_true_iff.mp h
      exact plainChar_of_ranges (Or.inr (Or.inr (Or.inr (Or.inr (Or.inl
        ⟨of_decide_eq_true h1, of_decide_eq_true h2⟩)))))
  · unfold isTopicCont at h
    rcases Bool.or_eq_true_iff.mp h with h | h
    rotate_left
    · have := of_decide_eq_true h; subst this; decide
    rcases Bool.or_eq_true_iff.mp h with h | h
    rotate_left
    · have := of_decide_eq_true h; subst this; decide
    rcases Bool.or_eq_true_iff.mp h with h | h
    rotate_left
    · have := of_decide_eq_true h; subst this; decide
    rcases Bool.or_eq_true_iff.mp h with h | h
    rotate_left
    · have := of_decide_eq_true h; subst this; decide
    rcases Bool.or_eq_true_iff.mp h with h | h
    rotate_left
    · have := of_decide_eq_true h; subst this; decide
    · unfold isWordChar at h
      rcases Bool.or_eq_true_iff.mp h with h | h
      rotate_left
      · obtain ⟨h1, h2⟩ := Bool.and_eq_true_iff.mp h
        exact plainChar_of_ranges (Or.inr (Or.inr (Or.inr (Or.inr (Or.inl
          ⟨of_decide_eq_true h1, of_decide_eq_true h2⟩)))))
      rcases Bool.or_eq_true_iff.mp h with h | h
      rotate_left
      · have := of_decide_eq_true h; subst this; decide
      rcases Bool.or_eq_true_iff.mp h with h | h
      rotate_left
      · obtain ⟨h1, h2⟩ := Bool.and_eq_true_iff.mp h
        exact plainChar_of_ranges (Or.inr (Or.inr (Or.inl
          ⟨of_decide_eq_true h1, of_decide_eq_true h2⟩)))
      rcases Bool.or_eq_true_iff.mp h with h | h
      · obtain ⟨h1, h2⟩ := Bool.and_eq_true_iff.mp h
        exact plainChar_of_ranges (Or.inl
          ⟨of_decide_eq_true h1, of_decide_eq_true h2⟩)
      · obtain ⟨h1, h2⟩ := Bool.and_eq_true_iff.mp h
        exact plainChar_of_ranges (Or.inr (Or.inl
          ⟨of_decide_eq_true h1, of_decide_eq_true h2⟩))

theorem toNat_ofNat_valid {n : Nat} (h : n.isValidChar) :
    (Char.ofNat n).toNat = n := by
  unfold Char.ofNat
  rw [dif_pos h]
  unfold Char.ofNatAux Char.toNat
  simp [UInt32.toNat, BitVec.toNat_ofNatLt]

theorem toLower_plain {c : Char}
    (h : isTopicStart c = true ∨ isTopicCont c = true) :
    plainChar c.toLower = true := by
  unfold Char.toLower
  dsimp only
  by_cases hu : c.toNat ≥ 65 ∧ c.toNat ≤ 90
  · rw [if_pos hu]
    have hval : (c.toNat + 32).isValidChar := Or.inl (by omega)
    apply plainChar_of_ranges
    rw [toNat_ofNat_valid hval]
    omega
  · rw [if_neg hu]
    exact topic_plain h

theorem findTopicWordsAux_wf :
    ∀ (fuel : Nat) (s : Str) (w : Str), w ∈ findTopicWordsAux fuel s →
      w ≠ [] ∧ ∀ c ∈ w, isTopicStart c = true ∨ isTopicCont c = true := by
  intro fuel
  induction fuel with
  | zero => intro s w hw; simp [findTopicWordsAux] at hw
  | succ fuel ih =>
    intro s w hw
    cases s with
    | nil => simp [findTopicWordsAux] at hw
    | cons c rest =>
      rw [findTopicWordsAux] at hw
      by_cases hc : isTopicStart c = true
      · rw [if_pos hc] at hw
        cases htake : rest.takeWhile isTopicCont with
        | nil =>
          rw [htake] at hw
          exact ih rest w hw
        | cons d run2 =>
          cases run2 with
          | nil =>
            rw [htake] at hw
            exact ih rest w hw
          | cons e run3 =>
            rw [htake] at hw
            rcases List.mem_cons.mp hw with rfl | hmem
            · refine ⟨by simp, ?_⟩
              intro x hx
              rcases List.mem_cons.mp hx with rfl | hx2
              · exact Or.inl hc
              · right
                have hx3 : x ∈ rest.takeWhile isTopicCont := by
                  rw [htake]; exact hx2
                exact List.mem_takeWhile_imp hx3
            · exact ih _ w hmem
      · rw [if_neg hc] at hw
        exact ih rest w hw

theorem dedupKeepFirst_subset :
    ∀ (l : List Str) (seen : List Str) (w : Str),
      w ∈ dedupKeepFirst seen l → w ∈ l := by
  intro l
  induction l with
  | nil => intro seen w hw; simp [dedupKeepFirst] at hw
  | cons x l ih =>
    intro seen w hw
    rw [dedupKeepFirst] at hw
    split at hw
    · exact List.mem_cons_of_mem x (ih seen w hw)
    · rcases List.mem_cons.mp hw with rfl | hmem
      · exact List.mem_cons_self _ _
      · exact List.mem_cons_of_mem x (ih _ w hmem)

/-- Every topic keyword is non-empty and consists of plain characters. -/
theorem topicKeywords_plain (t : Str) :
    ∀ w ∈ topicKeywords t, w ≠ [] ∧ ∀ c ∈ w, plainChar c = true := by
  intro w hw
  unfold topicKeywords at hw
  dsimp only at hw
  split at hw
  · rcases List.mem_singleton.mp hw with rfl
    exact ⟨by simp, by decide⟩
  · have hw2 := List.mem_of_mem_take hw
    have hw3 := dedupKeepFirst_subset _ [] w hw2
    obtain ⟨w0, hw0, rfl⟩ := List.mem_map.mp hw3
    obtain ⟨hne, hclass⟩ := findTopicWordsAux_wf _ _ w0 hw0
    constructor
    · simp [pyLower, hne]
    · intro c hc
      obtain ⟨c0, hc0, rfl⟩ := List.mem_map.mp hc
      exact toLower_plain (hclass c0 hc0)

theorem char_ne_of_toNat {c d : Char} {k : Nat} (hdk : d.toNat = k)
    (hck : c.toNat ≠ k) : c ≠ d := fun hcd => hck (hcd ▸ hdk)

theorem plain_not_space {c : Char} (h : plainChar c = true) :
    isPySpace c = false := by
  simp only [plainChar, Bool.not_eq_true', Bool.or_eq_false_iff,
    decide_eq_false_iff_not] at h
  obtain ⟨⟨⟨⟨⟨⟨⟨⟨h32, h9⟩, h10⟩, h11⟩, h12⟩, h13⟩, h160⟩, _⟩, _⟩ := h
  simp only [isPySpace, Bool.or_eq_false_iff, decide_eq_false_iff_not]
  exact ⟨⟨⟨⟨⟨⟨char_ne_of_toNat rfl h32, char_ne_of_toNat rfl h9⟩,
    char_ne_of_toNat rfl h10⟩, char_ne_of_toNat rfl h11⟩,
    char_ne_of_toNat rfl h12⟩, char_ne_of_toNat rfl h13⟩,
    char_ne_of_toNat rfl h160⟩

theorem plain_ne_lt {c : Char} (h : plainChar c = true) : c ≠ '<' := by
  simp only [plainChar, Bool.not_eq_true', Bool.or_eq_false_iff,
    decide_eq_false_iff_not] at h
  exact char_ne_of_toNat rfl h.1.2

theorem plain_ne_amp {c : Char} (h : plainChar c = true) : c ≠ '&' := by
  simp only [plainChar, Bool.not_eq_true', Bool.or_eq_false_iff,
    decide_eq_false_iff_not] at h
  exact char_ne_of_toNat rfl h.2

theorem wsOk_cons_nonspace {c : Char} (t : Str) (hc : isPySpace c = false) :
    wsOkB (c :: t) = wsOkB t := by
  cases t with
  | nil => simp [wsOkB, hc]
  | cons d rest => simp [wsOkB, hc]

theorem wsOk_space_cons {d : Char} (rest : Str) (hd : isPySpace d = false) :
    wsOkB (' ' :: d :: rest) = wsOkB (d :: rest) := by
  simp +decide [wsOkB, isPySpace]
  intro _
  simpa [isPySpace] using hd

theorem wsOk_word :
    ∀ (w t : Str), (∀ c ∈ w, isPySpace c = false) →
      wsOkB (w ++ t) = wsOkB t := by
  intro w
  induction w with
  | nil => intro t _; rfl
  | cons c w ih =>
    intro t h
    rw [List.cons_append, wsOk_cons_nonspace _ (h c (by simp))]
    exact ih t fun x hx => h x (List.mem_cons_of_mem c hx)

theorem intercalate_nil (sep : Str) : List.intercalate sep [] = [] := by
  simp [List.intercalate]

theorem intercalate_single (sep w : Str) : List.intercalate sep [w] = w := by
  simp [List.intercalate, List.intersperse]

theorem intercalate_cons2 (sep x y : Str) (zs : List Str) :
    List.intercalate sep (x :: y :: zs) =
      x ++ sep ++ List.intercalate sep (y :: zs) := by
  simp [List.intercalate, List.intersperse]

theorem mem_intercalate {sep : Str} :
    ∀ {ws : List Str} {c : Char}, c ∈ List.intercalate sep ws →
      (∃ w ∈ ws, c ∈ w) ∨ c ∈ sep := by
  intro ws
  induction ws with
  | nil => intro c hc; rw [intercalate_nil] at hc; simp at hc
  | cons w rest ih =>
    intro c hc
    cases rest with
    | nil =>
      rw [intercalate_single] at hc
      exact Or.inl ⟨w, by simp, hc⟩
    | cons y zs =>
      rw [intercalate_cons2] at hc
      rcases List.mem_append.mp hc with hc1 | hc2
      · rcases List.mem_append.mp hc1 with hc3 | hc4
        · exact Or.inl ⟨w, by simp, hc3⟩
        · exact Or.inr hc4
      · rcases ih hc2 with ⟨w2, hw2, hcw2⟩ | hsep
        · exact Or.inl ⟨w2, List.mem_cons_of_mem w hw2, hcw2⟩
        · exact Or.inr hsep

theorem intercalate_head (sep : Str) (c2 : Char) (w2 : Str) (ws : List Str) :
    ∃ tl, List.intercalate sep ((c2 :: w2) :: ws) = c2 :: tl := by
  cases ws with
  | nil => exact ⟨w2, intercalate_single _ _⟩
  | cons y zs =>
    refine ⟨w2 ++ sep ++ List.intercalate sep (y :: zs), ?_⟩
    rw [intercalate_cons2]
    simp

theorem wsOk_join :
    ∀ (ws : List Str) (t : Str),
      (∀ w ∈ ws, w ≠ [] ∧ ∀ c ∈ w, plainChar c = true) →
      (∀ c ∈ t.head?, isPySpace c = false) →
      wsOkB (List.intercalate ", ".toList ws ++ t) = wsOkB t := by
  intro ws
  induction ws with
  | nil => intro t _ _; rw [intercalate_nil, List.nil_append]
  | cons w rest ih =>
    intro t h ht
    obtain ⟨hwne, hwplain⟩ := h w (by simp)
    cases rest with
    | nil =>
      rw [intercalate_single]
      exact wsOk_word w t fun c hc => plain_not_space (hwplain c hc)
    | cons w2 zs =>
      obtain ⟨hw2ne, hw2plain⟩ := h w2 (by simp)
      obtain ⟨c2, w2', rfl⟩ : ∃ c2 w2', w2 = c2 :: w2' := by
        cases w2 with
        | nil => exact absurd rfl hw2ne
        | cons a b => exact ⟨a, b, rfl⟩
      have hc2 : isPySpace c2 = false :=
        plain_not_space (hw2plain c2 (by simp))
      obtain ⟨tl, htl⟩ := intercalate_head ", ".toList c2 w2' zs
      rw [intercalate_cons2, htl]
      have step1 : (w ++ ", ".toList ++ (c2 :: tl)) ++ t =
          w ++ (',' :: ' ' :: (c2 :: (tl ++ t))) := by
        simp
      rw [step1]
      rw [wsOk_word w _ fun c hc => plain_not_space (hwplain c hc)]
      rw [wsOk_cons_nonspace _ (by decide)]
      rw [wsOk_space_cons _ hc2]
      have e : (c2 :: (tl ++ t) : Str) =
          List.intercalate ", ".toList ((c2 :: w2') :: zs) ++ t := by
        rw [htl]
        simp
      rw [e, ih t (fun x hx => h x (List.mem_cons_of_mem _ hx)) ht]

theorem topicKeywords_ne_nil (t : Str) : topicKeywords t ≠ [] := by
  unfold topicKeywords
  dsimp only
  split
  · simp
  case isFalse h => simpa [List.isEmpty_iff] using h

theorem wsOk_prompt_lead (d : Char) (rest : Str) (hd : isPySpace d = false) :
    wsOkB ("Write a paragraph in my signature style about: ".toList ++ d :: rest) =
      wsOkB (d :: rest) := by
  simp +decide [wsOkB, isPySpace]
  intro _
  simpa [isPySpace] using hd

theorem docsPrompt_decomp (txt : Str) :
    ∃ (c1 : Char) (tl : Str),
      topicKeywords txt ≠ [] ∧ plainChar c1 = true ∧
      List.intercalate ", ".toList (topicKeywords txt) = c1 :: tl ∧
      docsPrompt txt =
        "Write a paragraph in my signature style about: ".toList ++
          (c1 :: tl) ++ ".".toList := by
  have hne := topicKeywords_ne_nil txt
  obtain ⟨w1, ws', hws⟩ : ∃ w1 ws', topicKeywords txt = w1 :: ws' := by
    cases h : topicKeywords txt with
    | nil => exact absurd h hne
    | cons a b => exact ⟨a, b, rfl⟩
  obtain ⟨hw1ne, hw1plain⟩ := topicKeywords_plain txt w1 (by rw [hws]; simp)
  obtain ⟨c1, w1', rfl⟩ : ∃ c1 w1', w1 = c1 :: w1' := by
    cases w1 with
    | nil => exact absurd rfl hw1ne
    | cons a b => exact ⟨a, b, rfl⟩
  obtain ⟨tl, htl⟩ := intercalate_head ", ".toList c1 w1' ws'
  refine ⟨c1, tl, hne, hw1plain c1 (by simp), ?_, ?_⟩
  · rw [hws, htl]
  · unfold docsPrompt
    rw [hws, htl]

theorem docsPrompt_no_lt (txt : Str) : '<' ∉ docsPrompt txt := by
  intro hmem
  unfold docsPrompt at hmem
  rcases List.mem_append.mp hmem with h1 | h2
  · rcases List.mem_append.mp h1 with h3 | h4
    · revert h3; decide
    · rcases mem_intercalate h4 with ⟨w, hw, hcw⟩ | hsep
      · obtain ⟨_, hplain⟩ := topicKeywords_plain txt w hw
        exact plain_ne_lt (hplain _ hcw) rfl
      · revert hsep; decide
  · revert h2; decide

theorem docsPrompt_no_amp (txt : Str) : '&' ∉ docsPrompt txt := by
  intro hmem
  unfold docsPrompt at hmem
  rcases List.mem_append.mp hmem with h1 | h2
  · rcases List.mem_append.mp h1 with h3 | h4
    · revert h3; decide
    · rcases mem_intercalate h4 with ⟨w, hw, hcw⟩ | hsep
      · obtain ⟨_, hplain⟩ := topicKeywords_plain txt w hw
        exact plain_ne_amp (hplain _ hcw) rfl
      · revert hsep; decide
  · revert h2; decide

theorem docsPrompt_wsOk (txt : Str) : wsOkB (docsPrompt txt) = true := by
  obtain ⟨c1, tl, hne, hplain, htl, hdec⟩ := docsPrompt_decomp txt
  rw [hdec, List.append_assoc, List.cons_append]
  rw [wsOk_prompt_lead c1 (tl ++ ".".toList) (plain_not_space hplain)]
  have : (c1 :: (tl ++ ".".toList) : Str) =
      List.intercalate ", ".toList (topicKeywords txt) ++ ".".toList := by
    rw [htl]
    simp
  rw [this]
  rw [wsOk_join (topicKeywords txt) ".".toList (topicKeywords_plain txt)
    (by intro c hc; simp at hc; subst hc; rfl)]
  rfl

theorem docsPrompt_normText (txt : Str) :
    normText (docsPrompt txt) = docsPrompt txt := by
  obtain ⟨c1, tl, _, _, _, hdec⟩ := docsPrompt_decomp txt
  refine normText_id (docsPrompt_no_lt txt) (docsPrompt_no_amp txt)
    (docsPrompt_wsOk txt) ?_ ?_
  · intro c hc
    rw [hdec, List.append_assoc] at hc
    have hh : ("Write a paragraph in my signature style about: ".toList ++
        ((c1 :: tl) ++ ".".toList)).head? = some 'W' := rfl
    rw [hh] at hc
    simp at hc
    subst hc
    rfl
  · unfold docsPrompt
    intro c hc
    rw [show ("Write a paragraph in my signature style about: ".toList ++
        List.intercalate ", ".toList (topicKeywords txt) ++ ".".toList : Str) =
        ("Write a paragraph in my signature style about: ".toList ++
          List.intercalate ", ".toList (topicKeywords txt)) ++ ['.'] from by simp,
      List.getLast?_concat] at hc
    simp at hc
    subst hc
    rfl

theorem docsPrompt_generic (txt : Str) :
    isGenericPrompt (normText (docsPrompt txt)) = true := by
  rw [docsPrompt_normText]
  unfold isGenericPrompt
  apply Bool.or_eq_true_iff.mpr
  right
  apply List.isPrefixOf_iff_prefix.mpr
  unfold docsPrompt pyLower
  rw [List.map_append, List.map_append]
  have h1 : "write a".toList <+:
      ("Write a paragraph in my signature style about: ".toList.map Char.toLower) := by
    decide
  exact h1.trans (List.prefix_append _ _)

/-- C9.  The single-turn style prompts of the archive adapter, the
incremental API adapter (both `"Write a tweet in my style."`), and the
document chunk adapter (`"Write a paragraph in my signature style
about: ..."`) all satisfy the unify stage's generic-prompt predicate after
normalization (they match the case-insensitive `"write a"` prefix test);
consequently, with `--drop-generic-prompts` enabled, `unify_datasets`
excludes every such style example from the output, whatever the answer text
and the configured assistant role label. -/
theorem generic_style_C9 :
    isGenericPrompt (normText "Write a tweet in my style.".toList) = true ∧
    (∀ txt : Str, isGenericPrompt (normText (docsPrompt txt)) = true) ∧
    (∀ text roleA : Str,
      unifyNormalize true
        (some (makeStyleMsgs "Write a tweet in my style.".toList text roleA)) =
        none) ∧
    (∀ txt : Str, unifyNormalize true (some (docsExampleMsgs txt)) = none) := by
  refine ⟨by decide, docsPrompt_generic, ?_, ?_⟩
  · intro text roleA
    exact styleExample_dropped _ _ _ (by decide)
  · intro txt
    exact styleExample_dropped _ _ _ (docsPrompt_generic txt)

theorem ancestorsAux_cons_or_nil (idx : List (Int × SqlRow)) (fuel : Nat)
    (seen : List Int) (cur : SqlRow) :
    ancestorsAux idx fuel seen cur = [] ∨
    ∃ rest, ancestorsAux idx fuel seen cur = cur :: rest := by
  cases fuel with
  | zero => exact Or.inl rfl
  | succ fuel =>
    rw [ancestorsAux]
    by_cases h : cur.id ∈ seen
    · rw [if_pos h]; exact Or.inl rfl
    · rw [if_neg h]; exact Or.inr ⟨_, rfl⟩

theorem ancestorsAux_ids (idx : List (Int × SqlRow)) :
    ∀ (fuel : Nat) (seen : List Int) (cur : SqlRow),
      ((ancestorsAux idx fuel seen cur).map SqlRow.id).Pairwise (· ≠ ·) ∧
      ∀ i ∈ (ancestorsAux idx fuel seen cur).map SqlRow.id, i ∉ seen := by
  intro fuel
  induction fuel with
  | zero => intro seen cur; simp [ancestorsAux]
  | succ fuel ih =>
    intro seen cur
    rw [ancestorsAux]
    by_cases h : cur.id ∈ seen
    · rw [if_pos h]; simp
    · rw [if_neg h]
      have hrec :
          ∀ (nxt : SqlRow),
            ((ancestorsAux idx fuel (cur.id :: seen) nxt).map SqlRow.id).Pairwise (· ≠ ·) ∧
            ∀ i ∈ (ancestorsAux idx fuel (cur.id :: seen) nxt).map SqlRow.id,
              i ∉ cur.id :: seen := fun nxt => ih (cur.id :: seen) nxt
      cases hp : parentStep cur with
      | none => simp [h]
      | some pid =>
        dsimp only
        cases hl : idxLookup idx pid with
        | none => simp [h]
        | some nxt =>
          dsimp only
          obtain ⟨hpw, hnotin⟩ := hrec nxt
          constructor
          · rw [List.map_cons]
            refine List.pairwise_cons.mpr ⟨?_, hpw⟩
            intro i hi hcuri
            exact (hnotin i hi) (hcuri ▸ List.mem_cons_self _ _)
          · rw [List.map_cons]
            intro i hi
            rcases List.mem_cons.mp hi with rfl | hi2
            · exact h
            · exact fun hins => (hnotin i hi2) (List.mem_cons_of_mem _ hins)

theorem ancestorsAux_chain (idx : List (Int × SqlRow)) :
    ∀ (fuel : Nat) (seen : List Int) (cur : SqlRow),
      List.Chain'
        (fun x y => ∃ pid, parentStep x = some pid ∧ idxLookup idx pid = some y)
        (ancestorsAux idx fuel seen cur) := by
  intro fuel
  induction fuel with
  | zero => intro seen cur; simp [ancestorsAux]
  | succ fuel ih =>
    intro seen cur
    rw [ancestorsAux]
    by_cases h : cur.id ∈ seen
    · rw [if_pos h]; simp
    · rw [if_neg h]
      cases hp : parentStep cur with
      | none => simp
      | some pid =>
        dsimp only
        cases hl : idxLookup idx pid with
        | none => simp
        | some nxt =>
          dsimp only
          refine List.Chain'.cons' (ih (cur.id :: seen) nxt) ?_
          intro y hy
          rcases ancestorsAux_cons_or_nil idx fuel (cur.id :: seen) nxt with
            hnil | ⟨rest, hcons⟩
          · rw [hnil] at hy; simp at hy
          · rw [hcons] at hy
            simp only [List.head?_cons, Option.mem_some_iff] at hy
            subst hy
            exact ⟨pid, hp, hl⟩

theorem idxLookup_mem {idx : List (Int × SqlRow)} {pid : Int} {nxt : SqlRow}
    (h : idxLookup idx pid = some nxt) :
    nxt.id ∈ idx.map (fun p => p.2.id) := by
  unfold idxLookup at h
  cases hf : idx.find? (fun p => p.1 = pid) with
  | none => rw [hf] at h; exact absurd h (by simp)
  | some entry =>
    rw [hf] at h
    have h2 : entry.2 = nxt := by simpa using h
    subst h2
    exact List.mem_map.mpr ⟨entry, List.mem_of_find?_eq_some hf, rfl⟩

theorem ancestorsAux_stable_aux (idx : List (Int × SqlRow)) :
    ∀ (n : Nat) (seen : List Int) (cur : SqlRow),
      cur.id ∈ idx.map (fun p => p.2.id) →
      ((idx.map (fun p => p.2.id)).filter (fun i => i ∉ seen)).length ≤ n →
      ancestorsAux idx (n + 1) seen cur = ancestorsAux idx (n + 2) seen cur := by
  intro n
  induction n with
  | zero =>
    intro seen cur hmem hm
    have hin : cur.id ∈ seen := by
      by_contra hnot
      have : cur.id ∈ (idx.map (fun p => p.2.id)).filter (fun i => i ∉ seen) :=
        List.mem_filter.mpr ⟨hmem, by simpa using hnot⟩
      have := List.length_pos_of_mem this
      omega
    rw [ancestorsAux, ancestorsAux, if_pos hin, if_pos hin]
  | succ n ih =>
    intro seen cur hmem hm
    rw [ancestorsAux, ancestorsAux]
    by_cases h : cur.id ∈ seen
    · rw [if_pos h, if_pos h]
    · rw [if_neg h, if_neg h]
      cases hp : parentStep cur with
      | none => rfl
      | some pid =>
        dsimp only
        cases hl : idxLookup idx pid with
        | none => rfl
        | some nxt =>
          dsimp only
          congr 1
          have hnxt := idxLookup_mem hl
          have hcur : cur.id ∈ (idx.map (fun p => p.2.id)).filter
              (fun i => i ∉ seen) :=
            List.mem_filter.mpr ⟨hmem, by simpa using h⟩
          have hmono :
              ((idx.map (fun p => p.2.id)).filter
                (fun i => i ∉ cur.id :: seen)).length <
              ((idx.map (fun p => p.2.id)).filter (fun i => i ∉ seen)).length := by
            have heq : (idx.map (fun p => p.2.id)).filter
                (fun i => i ∉ cur.id :: seen) =
                ((idx.map (fun p => p.2.id)).filter (fun i => i ∉ seen)).filter
                  (fun i => i ≠ cur.id) := by
              rw [List.filter_filter]
              apply List.filter_congr
              intro x _
              simp only [List.mem_cons]
              by_cases h1 : x = cur.id <;> by_cases h2 : x ∈ seen <;>
                simp [h1, h2]
            rw [heq]
            apply List.length_filter_lt_length_iff_exists.mpr
            exact ⟨cur.id, hcur, by simp⟩
          exact ih (cur.id :: seen) nxt hnxt (by omega)

theorem ancestorsAux_stable (idx : List (Int × SqlRow)) (row : SqlRow) :
    ∀ k, ancestorsAux idx (ancestorsFuel idx + k) [] row =
      ancestorsAux idx (ancestorsFuel idx) [] row := by
  have hstep : ∀ m, idx.length + 2 ≤ m →
      ancestorsAux idx m [] row = ancestorsAux idx (m + 1) [] row := by
    intro m hmle
    obtain ⟨m', rfl⟩ : ∃ m', m = m' + 1 := ⟨m - 1, by omega⟩
    rw [ancestorsAux, ancestorsAux]
    rw [if_neg (by simp), if_neg (by simp)]
    cases hp : parentStep row with
    | none => rfl
    | some pid =>
      dsimp only
      cases hl : idxLookup idx pid with
      | none => rfl
      | some nxt =>
        dsimp only
        congr 1
        obtain ⟨m'', rfl⟩ : ∃ m'', m' = m'' + 1 := ⟨m' - 1, by omega⟩
        apply ancestorsAux_stable_aux
        · exact idxLookup_mem hl
        · calc ((idx.map (fun p => p.2.id)).filter
              (fun i => i ∉ [row.id])).length
              ≤ (idx.map (fun p => p.2.id)).length :=
                List.length_filter_le _ _
            _ = idx.length := List.length_map _ _
            _ ≤ m'' := by omega
  intro k
  induction k with
  | zero => rfl
  | succ k ih =>
    have : ancestorsFuel idx + (k + 1) = (ancestorsFuel idx + k) + 1 := by omega
    rw [this, ← hstep (ancestorsFuel idx + k) (by unfold ancestorsFuel; omega), ih]

theorem ancestorsAux_last_stop (idx : List (Int × SqlRow)) :
    ∀ (fuel : Nat) (seen : List Int) (cur : SqlRow),
      ancestorsAux idx fuel seen cur = ancestorsAux idx (fuel + 1) seen cur →
      ∀ c, (ancestorsAux idx fuel seen cur).getLast? = some c →
        parentStep c = none ∨
        ∃ pid, parentStep c = some pid ∧
          (idxLookup idx pid = none ∨
           ∃ nxt, idxLookup idx pid = some nxt ∧
             (nxt.id ∈ (ancestorsAux idx fuel seen cur).map SqlRow.id ∨
              nxt.id ∈ seen)) := by
  intro fuel
  induction fuel with
  | zero =>
    intro seen cur _ c hc
    simp [ancestorsAux] at hc
  | succ fuel ih =>
    intro seen cur hst c hc
    by_cases h : cur.id ∈ seen
    · rw [ancestorsAux, if_pos h] at hc
      simp at hc
    · cases hp : parentStep cur with
      | none =>
        have he : ancestorsAux idx (fuel + 1) seen cur = [cur] := by
          rw [ancestorsAux, if_neg h, hp]
        rw [he] at hc
        simp only [List.getLast?_singleton, Option.some_inj] at hc
        subst hc
        exact Or.inl hp
      | some pid =>
        cases hl : idxLookup idx pid with
        | none =>
          have he : ancestorsAux idx (fuel + 1) seen cur = [cur] := by
            rw [ancestorsAux, if_neg h, hp]
            dsimp only
            rw [hl]
          rw [he] at hc
          simp only [List.getLast?_singleton, Option.some_inj] at hc
          subst hc
          exact Or.inr ⟨pid, hp, Or.inl hl⟩
        | some nxt =>
          have he : ancestorsAux idx (fuel + 1) seen cur =
              cur :: ancestorsAux idx fuel (cur.id :: seen) nxt := by
            rw [ancestorsAux, if_neg h, hp]
            dsimp only
            rw [hl]
          have he2 : ancestorsAux idx (fuel + 1 + 1) seen cur =
              cur :: ancestorsAux idx (fuel + 1) (cur.id :: seen) nxt := by
            rw [show fuel + 1 + 1 = (fuel + 1) + 1 from rfl, ancestorsAux,
              if_neg h, hp]
            dsimp only
            rw [hl]
          have hrest : ancestorsAux idx fuel (cur.id :: seen) nxt =
              ancestorsAux idx (fuel + 1) (cur.id :: seen) nxt := by
            have hx := hst
            rw [he, he2] at hx
            injection hx
          rw [he] at hc ⊢
          cases hrnil : ancestorsAux idx fuel (cur.id :: seen) nxt with
          | nil =>
            rw [hrnil] at hc
            simp only [List.getLast?_singleton, Option.some_inj] at hc
            subst hc
            have hseen : nxt.id ∈ cur.id :: seen := by
              by_contra hnot
              have hne : ancestorsAux idx (fuel + 1) (cur.id :: seen) nxt ≠ [] := by
                rw [ancestorsAux, if_neg hnot]
                simp
              rw [← hrest, hrnil] at hne
              exact hne rfl
            refine Or.inr ⟨pid, hp, Or.inr ⟨nxt, hl, ?_⟩⟩
            rcases List.mem_cons.mp hseen with heq | hmem
            · left
              simp [heq]
            · right
              exact hmem
          | cons r rest2 =>
            rw [hrnil] at hc
            have hc2 : (r :: rest2).getLast? = some c := by
              rw [List.getLast?_cons_cons] at hc
              exact hc
            have hres := ih (cur.id :: seen) nxt hrest c (by rw [hrnil]; exact hc2)
            rcases hres with h1 | ⟨pid2, hp2, h3⟩
            · exact Or.inl h1
            · refine Or.inr ⟨pid2, hp2, ?_⟩
              rcases h3 with h4 | ⟨nxt2, hl2, h5⟩
              · exact Or.inl h4
              · refine Or.inr ⟨nxt2, hl2, ?_⟩
                rcases h5 with h6 | h7
                · left
                  rw [hrnil] at h6
                  rw [List.map_cons]
                  exact List.mem_cons_of_mem _ h6
                · rcases List.mem_cons.mp h7 with heq | hmem
                  · left
                    rw [List.map_cons, heq]
                    exact List.mem_cons_self _ _
                  · right
                    exact hmem

/-- C7.  For every finite id-to-row index and every starting row — including
self-referencing and cyclic parent pointers — the ancestor walk terminates
(the result is independent of any extra fuel beyond the model's bound,
which is the fuel-indexed rendering of the Python `while` loop's
termination), the returned chain has pairwise-distinct row ids, it is
ordered root-first (each element is the index entry for its successor's
parent pointer) with the starting row as its last element, and the walk
stopped at the chain's first element because its parent id is null / zero /
its own id, is absent from the index, or points back into the already-seen
chain (cycle protection). -/
theorem ancestors_C7 (idx : List (Int × SqlRow)) (row : SqlRow) :
    ((ancestors idx row).map SqlRow.id).Pairwise (· ≠ ·) ∧
    (ancestors idx row).getLast? = some row ∧
    List.Chain'
      (fun a b => ∃ pid, parentStep b = some pid ∧ idxLookup idx pid = some a)
      (ancestors idx row) ∧
    (∀ root, (ancestors idx row).head? = some root →
       parentStep root = none ∨
       ∃ pid, parentStep root = some pid ∧
         (idxLookup idx pid = none ∨
          ∃ nxt, idxLookup idx pid = some nxt ∧
            nxt.id ∈ (ancestors idx row).map SqlRow.id)) ∧
    (∀ k, (ancestorsAux idx (ancestorsFuel idx + k) [] row).reverse =
       ancestors idx row) := by
  refine ⟨?_, ?_, ?_, ?_, ?_⟩
  · unfold ancestors
    rw [List.map_reverse, List.pairwise_reverse]
    have := (ancestorsAux_ids idx (ancestorsFuel idx) [] row).1
    exact this.imp fun h => Ne.symm h
  · unfold ancestors
    rw [List.getLast?_reverse]
    unfold ancestorsFuel
    rw [show idx.length + 2 = (idx.length + 1) + 1 from rfl, ancestorsAux,
      if_neg (by simp)]
    rfl
  · unfold ancestors
    rw [List.chain'_reverse]
    have := ancestorsAux_chain idx (ancestorsFuel idx) [] row
    exact this.imp fun {a b} h => h
  · intro root hroot
    unfold ancestors at hroot ⊢
    rw [List.head?_reverse] at hroot
    have hstable : ancestorsAux idx (ancestorsFuel idx) [] row =
        ancestorsAux idx (ancestorsFuel idx + 1) [] row :=
      (ancestorsAux_stable idx row 1).symm
    have := ancestorsAux_last_stop idx (ancestorsFuel idx) [] row hstable
      root hroot
    rcases this with h1 | ⟨pid, hp, h3⟩
    · exact Or.inl h1
    · refine Or.inr ⟨pid, hp, ?_⟩
      rcases h3 with h4 | ⟨nxt, hl, h5⟩
      · exact Or.inl h4
      · refine Or.inr ⟨nxt, hl, ?_⟩
        rcases h5 with h6 | h7
        · rw [List.map_reverse, List.mem_reverse]
          exact h6
        · simp at h7
  · intro k
    rw [ancestorsAux_stable idx row k]
    rfl

/-- Witness for C7 on a two-element cyclic index (`1 → 2 → 1`): the walk
terminates with the chain `[row 2, row 1]`, distinct ids, starting row
last, and the stop is by cycle protection. -/
theorem ancestors_C7_witness :
    (ancestors [((1 : Int), SqlRow.mk 1 (some 2)), ((2 : Int), SqlRow.mk 2 (some 1))]
        (SqlRow.mk 1 (some 2))).getLast? = some (SqlRow.mk 1 (some 2)) ∧
    (parentStep (SqlRow.mk 2 (some 1)) = none ∨
     ∃ pid, parentStep (SqlRow.mk 2 (some 1)) = some pid ∧
       (idxLookup [((1 : Int), SqlRow.mk 1 (some 2)),
          ((2 : Int), SqlRow.mk 2 (some 1))] pid = none ∨
        ∃ nxt, idxLookup [((1 : Int), SqlRow.mk 1 (some 2)),
            ((2 : Int), SqlRow.mk 2 (some 1))] pid = some nxt ∧
          nxt.id ∈ (ancestors [((1 : Int), SqlRow.mk 1 (some 2)),
              ((2 : Int), SqlRow.mk 2 (some 1))]
            (SqlRow.mk 1 (some 2))).map SqlRow.id)) := by
  refine ⟨(ancestors_C7 _ _).2.1, ?_⟩
  exact (ancestors_C7 [((1 : Int), SqlRow.mk 1 (some 2)),
    ((2 : Int), SqlRow.mk 2 (some 1))] (SqlRow.mk 1 (some 2))).2.2.2.1
    (SqlRow.mk 2 (some 1)) (by decide)

theorem shuffleGo_length {α : Type} :
    ∀ (fuel s : Nat) (l : List α), l.length = fuel →
      (shuffleGo fuel s l).length = fuel := by
  intro fuel
  induction fuel with
  | zero => intro s l h; rfl
  | succ fuel ih =>
    intro s l h
    have hne : l ≠ [] := by
      intro h0
      rw [h0] at h
      simp at h
    have hlt : lcgNext s % l.length < l.length := by
      apply Nat.mod_lt
      rw [h]
      omega
    rw [shuffleGo, List.getElem?_eq_getElem hlt]
    simp only [List.length_cons]
    rw [ih (lcgNext s) (l.eraseIdx (lcgNext s % l.length))]
    rw [List.length_eraseIdx, if_pos hlt, h]
    omega

theorem shuffleSeed_length {α : Type} (s : Nat) (l : List α) :
    (shuffleSeed s l).length = l.length :=
  shuffleGo_length l.length s l rfl

theorem ratMulNat_eq (n : Nat) (q : ℚ) : ratMulNat n q = (n : ℚ) * q := by
  unfold ratMulNat
  rw [Rat.mkRat_eq_div]
  rw [show ((n * q.num : Int) : ℚ) = (n : ℚ) * (q.num : ℚ) by push_cast; ring]
  rw [mul_div_assoc, Rat.num_div_den]

/-- C8.  `split_dataset` on a non-empty input: the train and eval sets
partition the seeded-shuffled rows; with at least 2 rows the eval set gets
exactly `min(max(1, round(n·f)), n-1)` trailing rows (so at least 1, and the
train set keeps at least 1); with a single row the eval set is empty.  The
model is a pure function of `(seed, f, rows)`, so the same input, seed and
fraction always produce the identical partition.  The first conjunct
identifies the `mkRat`-built product with `(n : ℚ) * f`. -/
theorem split_C8 {α : Type} (seed : Nat) (f : ℚ) (rows : List α)
    (hne : rows ≠ []) :
    ratMulNat rows.length f = (rows.length : ℚ) * f ∧
    ∃ tr ev, splitDataset seed f rows = some (tr, ev) ∧
      tr ++ ev = shuffleSeed seed rows ∧
      (2 ≤ rows.length →
        ev.length =
          min (max 1 (pyRound (ratMulNat rows.length f))).toNat
            (rows.length - 1) ∧
        1 ≤ ev.length ∧ 1 ≤ tr.length ∧
        tr.length + ev.length = rows.length) ∧
      (rows.length = 1 → ev = [] ∧ tr = shuffleSeed seed rows) := by
  refine ⟨ratMulNat_eq _ _, ?_⟩
  unfold splitDataset
  rw [if_neg (by simpa [List.isEmpty_iff] using hne)]
  dsimp only
  have hlen : (shuffleSeed seed rows).length = rows.length :=
    shuffleSeed_length seed rows
  by_cases h2 : 2 ≤ rows.length
  · set z := pyRound (ratMulNat (shuffleSeed seed rows).length f) with hz
    have hz2 : pyRound (ratMulNat rows.length f) = z := by rw [hz, hlen]
    have hmax1 : 1 ≤ (max 1 z).toNat := by
      have : (1 : Int) ≤ max 1 z := le_max_left _ _
      omega
    have hgt : (shuffleSeed seed rows).length > 1 := by omega
    rw [if_pos hgt]
    set nEval := min (max 1 z).toNat ((shuffleSeed seed rows).length - 1)
      with hnev
    have hpos : 0 < nEval := by
      rw [hnev]
      apply lt_min
      · omega
      · omega
    rw [if_pos hpos]
    refine ⟨_, _, rfl, List.take_append_drop _ _, ?_, ?_⟩
    · intro _
      have hle : nEval ≤ rows.length - 1 := by
        rw [hnev, hlen]
        exact min_le_right _ _
      constructor
      · rw [List.length_drop, hlen, hz2, hnev, hlen]
        omega
      refine ⟨?_, ?_, ?_⟩
      · rw [List.length_drop, hlen]
        omega
      · rw [List.length_take, hlen]
        omega
      · rw [List.length_take, List.length_drop, hlen]
        omega
    · intro h1
      omega
  · have h1 : rows.length = 1 := by
      have : rows.length ≠ 0 := by
        simpa [List.length_eq_zero] using hne
      omega
    have hgt : ¬ (shuffleSeed seed rows).length > 1 := by omega
    rw [if_neg hgt, if_neg (by omega)]
    refine ⟨_, _, rfl, by simp, ?_, ?_⟩
    · intro h2c
      omega
    · intro _
      exact ⟨rfl, rfl⟩

/-- Witness for C8: four rows split with seed 0 and eval fraction 1/2. -/
theorem split_C8_witness :
    ∃ tr ev, splitDataset 0 (mkRat 1 2) [0, 1, 2, 3] = some (tr, ev) ∧
      tr ++ ev = shuffleSeed 0 [0, 1, 2, 3] ∧
      ev.length =
        min (max 1 (pyRound (ratMulNat 4 (mkRat 1 2)))).toNat 3 ∧
      1 ≤ ev.length ∧ 1 ≤ tr.length := by
  obtain ⟨_, tr, ev, h1, h2, h3, _⟩ :=
    split_C8 0 (mkRat 1 2) [0, 1, 2, 3] (by decide)
  obtain ⟨h4, h5, h6, _⟩ := h3 (by decide)
  exact ⟨tr, ev, h1, h2, h4, h5, h6⟩

/-- C10.  The archive adapter's carve-out on a non-empty example list:
exactly the last `round(n·f)` examples go to the eval file and the first
`n - round(n·f)` to the train file, with no cap — in particular when
`round(n·f) = n` the train file is written with zero rows. -/
theorem archive_split_C10 {α : Type} (f : ℚ) (rows : List α)
    (hne : rows ≠ [])
    (hk0 : 0 ≤ pyRound (ratMulNat rows.length f))
    (hkn : pyRound (ratMulNat rows.length f) ≤ (rows.length : Int)) :
    ratMulNat rows.length f = (rows.length : ℚ) * f ∧
    ∃ tr ev, archiveSplit f rows = some (tr, ev) ∧ tr ++ ev = rows ∧
      ev.length = (pyRound (ratMulNat rows.length f)).toNat ∧
      tr.length = rows.length - (pyRound (ratMulNat rows.length f)).toNat ∧
      ((pyRound (ratMulNat rows.length f)).toNat = rows.length → tr = []) := by
  refine ⟨ratMulNat_eq _ _, ?_⟩
  unfold archiveSplit
  rw [if_neg (by simpa [List.isEmpty_iff] using hne)]
  set k := pyRound (ratMulNat rows.length f) with hk
  by_cases hkpos : k > 0
  · rw [if_pos hkpos]
    have htn : ((rows.length : Int) - k).toNat = rows.length - k.toNat := by
      omega
    refine ⟨_, _, rfl, List.take_append_drop _ _, ?_, ?_, ?_⟩
    · rw [List.length_drop, htn]
      omega
    · rw [List.length_take, htn]
      omega
    · intro hkl
      rw [← List.length_eq_zero, List.length_take, htn]
      omega
  · rw [if_neg hkpos]
    have hk0' : k = 0 := by omega
    refine ⟨_, _, rfl, by simp, ?_, ?_, ?_⟩
    · simp [hk0']
    · simp [hk0']
    · intro hkl
      rw [hk0'] at hkl
      exact List.length_eq_zero.mp (by omega)

/-- Witness for C10: two rows with eval fraction 1 — the train file gets
zero rows, the eval file both. -/
theorem archive_split_C10_witness :
    ∃ tr ev, archiveSplit (mkRat 1 1) [0, 1] = some (tr, ev) ∧
      tr ++ ev = [0, 1] ∧ tr = [] ∧
      ev.length = (pyRound (ratMulNat 2 (mkRat 1 1))).toNat := by
  obtain ⟨_, tr, ev, h1, h2, h3, _, h5⟩ :=
    archive_split_C10 (mkRat 1 1) [0, 1] (by decide) (by decide) (by decide)
  exact ⟨tr, ev, h1, h2, h5 (by decide), h3⟩

theorem processDocFile_skip {minC maxC : Nat} {st : List (Str × DocEntry)}
    {app : List (List RawMsg)} {f : DocFile}
    (h : ∃ e, alistGet? st f.key = some e ∧ e.mtime = f.mtime ∧
      e.size = f.size) :
    processDocFile minC maxC (st, app) f = (st, app) := by
  obtain ⟨e, he, hm, hs⟩ := h
  unfold processDocFile
  dsimp only
  rw [he]
  dsimp only
  rw [if_pos (by rw [hm, hs]; simp)]

theorem processDocuments_fold_skip (minC maxC : Nat) :
    ∀ (files : List DocFile) (st : List (Str × DocEntry)),
      (∀ f ∈ files, ∃ e, alistGet? st f.key = some e ∧ e.mtime = f.mtime ∧
        e.size = f.size) →
      files.foldl (processDocFile minC maxC) (st, []) = (st, []) := by
  intro files
  induction files with
  | nil => intro st _; rfl
  | cons f files ih =>
    intro st h
    rw [List.foldl_cons, processDocFile_skip (h f (by simp))]
    exact ih st fun g hg => h g (List.mem_cons_of_mem f hg)

theorem alistGet?_filter_mem {st : List (Str × DocEntry)} {keys : List Str}
    {k : Str} (hk : k ∈ keys) :
    alistGet? (st.filter fun p => p.1 ∈ keys) k = alistGet? st k := by
  induction st with
  | nil => rfl
  | cons e st ih =>
    by_cases hke : e.1 = k
    · subst hke
      rw [show (e :: st).filter (fun p => decide (p.1 ∈ keys)) =
          e :: st.filter (fun p => decide (p.1 ∈ keys)) from by
        rw [List.filter_cons_of_pos (by simpa using hk)]]
      unfold alistGet?
      rw [List.find?_cons_of_pos _ (by simp), List.find?_cons_of_pos _ (by simp)]
    · by_cases hmem : e.1 ∈ keys
      · rw [show (e :: st).filter (fun p => decide (p.1 ∈ keys)) =
            e :: st.filter (fun p => decide (p.1 ∈ keys)) from by
          rw [List.filter_cons_of_pos (by simpa using hmem)]]
        unfold alistGet? at ih ⊢
        rw [List.find?_cons_of_neg _ (by simpa using hke),
          List.find?_cons_of_neg _ (by simpa using hke)]
        exact ih
      · rw [show (e :: st).filter (fun p => decide (p.1 ∈ keys)) =
            st.filter (fun p => decide (p.1 ∈ keys)) from by
          rw [List.filter_cons_of_neg (by simpa using hmem)]]
        unfold alistGet? at ih ⊢
        rw [List.find?_cons_of_neg _ (by simpa using hke)]
        exact ih

/-- C6.  Re-running the document adapter over an unchanged file tree —
every enumerated file's current `(mtime, size)` equal to its stored state
entry — appends zero lines to the output and leaves every enumerated file's
state entry `{mtime, size, chunks}` unchanged (the optional pruning of
entries for files no longer on disk never touches an enumerated file's
entry). -/
theorem docs_rerun_C6 (minC maxC : Nat) (delMiss : Bool)
    (st : List (Str × DocEntry)) (files : List DocFile)
    (hmatch : ∀ f ∈ files, ∃ e, alistGet? st f.key = some e ∧
      e.mtime = f.mtime ∧ e.size = f.size) :
    (processDocuments minC maxC delMiss st files).2 = [] ∧
    ∀ f ∈ files,
      alistGet? (processDocuments minC maxC delMiss st files).1 f.key =
        alistGet? st f.key := by
  unfold processDocuments
  rw [processDocuments_fold_skip minC maxC files st hmatch]
  dsimp only
  constructor
  · rfl
  · intro f hf
    by_cases hd : delMiss
    · rw [if_pos hd]
      exact alistGet?_filter_mem (List.mem_map.mpr ⟨f, hf, rfl⟩)
    · rw [if_neg hd]

/-- Witness for C6: one unchanged file, one matching state entry. -/
theorem docs_rerun_C6_witness :
    (processDocuments 1 100 true
      [("a".toList, DocEntry.mk 5 7 ["h".toList])]
      [DocFile.mk "a".toList 5 7 (some "text here".toList)]).2 = [] ∧
    alistGet? (processDocuments 1 100 true
      [("a".toList, DocEntry.mk 5 7 ["h".toList])]
      [DocFile.mk "a".toList 5 7 (some "text here".toList)]).1 "a".toList =
      alistGet? [("a".toList, DocEntry.mk 5 7 ["h".toList])] "a".toList := by
  have := docs_rerun_C6 1 100 true
    [("a".toList, DocEntry.mk 5 7 ["h".toList])]
    [DocFile.mk "a".toList 5 7 (some "text here".toList)]
    (by intro f hf; simp at hf; subst hf; exact ⟨DocEntry.mk 5 7 ["h".toList],
      by decide, rfl, rfl⟩)
  exact ⟨this.1, this.2
    (DocFile.mk "a".toList 5 7 (some "text here".toList)) (by simp)⟩

theorem syncStep_invariant (cfg : SyncCfg) (ids0 : List Str)
    (acc : List Str × List StyleExample × Str) (t : ApiTweet)
    (hsub : ∀ i ∈ ids0, i ∈ acc.1)
    (hexs : ∀ ex ∈ acc.2.1, ex.tweetId ∉ ids0) :
    (∀ i ∈ ids0, i ∈ (syncStep cfg acc t).1) ∧
    ∀ ex ∈ (syncStep cfg acc t).2.1, ex.tweetId ∉ ids0 := by
  unfold syncStep
  dsimp only
  split
  · exact ⟨hsub, hexs⟩
  · split
    · exact ⟨hsub, hexs⟩
    · split
      · exact ⟨hsub, hexs⟩
      · split
        · exact ⟨hsub, hexs⟩
        case isFalse hnotin _ _ _ =>
          constructor
          · intro i hi
            exact List.mem_cons_of_mem _ (hsub i hi)
          · intro ex hex
            rcases List.mem_append.mp hex with h1 | h2
            · exact hexs ex h1
            · rw [List.mem_singleton.mp h2]
              intro hin
              exact hnotin (hsub _ hin)
  
theorem processTweets_invariant (cfg : SyncCfg) (ids0 : List Str) :
    ∀ (ts : List ApiTweet) (acc : List Str × List StyleExample × Str),
      (∀ i ∈ ids0, i ∈ acc.1) →
      (∀ ex ∈ acc.2.1, ex.tweetId ∉ ids0) →
      ∀ ex ∈ (ts.foldl (syncStep cfg) acc).2.1, ex.tweetId ∉ ids0 := by
  intro ts
  induction ts with
  | nil => intro acc _ hexs; exact hexs
  | cons t ts ih =>
    intro acc hsub hexs
    rw [List.foldl_cons]
    obtain ⟨h1, h2⟩ := syncStep_invariant cfg ids0 acc t hsub hexs
    exact ih (syncStep cfg acc t) h1 h2

/-- C4.  `sync_tweets` only ever appends to the output file (the existing
lines are a prefix of the result), and every appended line carries a
`tweet_id` that was not among the identities recovered by scanning the
existing output file — so an item whose identity is already present in the
output (e.g. appended by an interrupted run whose checkpoint was never
persisted) is never emitted again. -/
theorem sync_no_reemit_C4 (cfg : SyncCfg) (outLines : List OutLine)
    (st : Option Str) (fetched : List ApiTweet) :
    (syncTweets cfg outLines st fetched).1.take outLines.length = outLines ∧
    ∀ tid, some (some tid) ∈
        (syncTweets cfg outLines st fetched).1.drop outLines.length →
      tid ∉ scanIds outLines := by
  unfold syncTweets
  dsimp only
  split
  · exact ⟨List.take_length _, by intro tid h; rw [List.drop_length] at h; simp at h⟩
  case isFalse hne =>
    constructor
    · exact List.take_left ..
    · intro tid h
      rw [List.drop_left] at h
      obtain ⟨ex, hex, hid⟩ := List.mem_map.mp h
      have hinv := processTweets_invariant cfg (scanIds outLines) fetched
        (scanIds outLines, [], startOf st) (fun i hi => hi) (by simp)
      have := hinv ex hex
      simp only [Option.some_inj] at hid
      rw [← hid]
      exact this

/-- Witness for C4: with line `{"tweet_id": "1"}` already in the output and
fetched tweets with ids 1 and 2, the appended region contains id 2, and the
theorem yields that 2 is not among the scanned identities. -/
theorem sync_no_reemit_C4_witness :
    "2".toList ∉ scanIds [some (some "1".toList)] :=
  (sync_no_reemit_C4 ⟨1, [], false, "assistant".toList⟩
      [some (some "1".toList)] none
      [ApiTweet.mk (some "1".toList) "hello again".toList
         (some "2024-06-01T00:00:00.000Z".toList) none false,
       ApiTweet.mk (some "2".toList) "hello world".toList
         (some "2024-06-02T00:00:00.000Z".toList) none false]).2
    "2".toList (by decide)

theorem strLtB_irrefl : ∀ a : Str, strLtB a a = false
  | [] => rfl
  | c :: rest => by
    rw [strLtB, if_neg (lt_irrefl c), if_neg (lt_irrefl c)]
    exact strLtB_irrefl rest

theorem strLtB_trans :
    ∀ (a b c : Str), strLtB a b = true → strLtB b c = true →
      strLtB a c = true := by
  intro a
  induction a with
  | nil =>
    intro b c hab hbc
    cases b with
    | nil => exact absurd hab (by simp [strLtB])
    | cons y ys =>
      cases c with
      | nil => exact absurd hbc (by simp [strLtB])
      | cons z zs => rfl
  | cons x xs ih =>
    intro b c hab hbc
    cases b with
    | nil => exact absurd hab (by simp [strLtB])
    | cons y ys =>
      cases c with
      | nil => exact absurd hbc (by simp [strLtB])
      | cons z zs =>
        rw [strLtB] at hab hbc ⊢
        by_cases hxy : x < y
        · by_cases hyz : y < z
          · rw [if_pos (lt_trans hxy hyz)]
          · rw [if_neg hyz] at hbc
            by_cases hzy : z < y
            · rw [if_pos hzy] at hbc
              exact absurd hbc (by simp)
            · rw [if_neg hzy] at hbc
              have : y = z := le_antisymm (not_lt.mp hzy) (not_lt.mp hyz)
              rw [if_pos (this ▸ hxy)]
        · rw [if_neg hxy] at hab
          by_cases hyx : y < x
          · rw [if_pos hyx] at hab
            exact absurd hab (by simp)
          · rw [if_neg hyx] at hab
            have hxy2 : x = y := le_antisymm (not_lt.mp hyx) (not_lt.mp hxy)
            subst hxy2
            by_cases hyz : x < z
            · rw [if_pos hyz]
            · rw [if_neg hyz] at hbc ⊢
              by_cases hzy : z < x
              · rw [if_pos hzy] at hbc
                exact absurd hbc (by simp)
              · rw [if_neg hzy] at hbc ⊢
                exact ih ys zs hab hbc

theorem strLtB_eq_of_not :
    ∀ (a b : Str), strLtB a b = false → strLtB b a = false → a = b := by
  intro a
  induction a with
  | nil =>
    intro b hab _
    cases b with
    | nil => rfl
    | cons y ys => exact absurd hab (by simp [strLtB])
  | cons x xs ih =>
    intro b hab hba
    cases b with
    | nil => exact absurd hba (by simp [strLtB])
    | cons y ys =>
      rw [strLtB] at hab hba
      by_cases hxy : x < y
      · rw [if_pos hxy] at hab
        exact absurd hab (by simp)
      · by_cases hyx : y < x
        · rw [if_pos hyx] at hba
          exact absurd hba (by simp)
        · have hxy2 : x = y := le_antisymm (not_lt.mp hyx) (not_lt.mp hxy)
          subst hxy2
          rw [if_neg hxy, if_neg hxy] at hab hba
          rw [ih ys hab hba]

theorem strLtB_asymm {a b : Str} (h : strLtB a b = true) :
    strLtB b a = false := by
  by_contra hcon
  have h2 : strLtB b a = true := by
    cases hx : strLtB b a
    · exact absurd hx hcon
    · rfl
  have := strLtB_trans a b a h h2
  rw [strLtB_irrefl] at this
  exact absurd this (by simp)

theorem strGeB_trans {a b c : Str} (hba : strLtB b a = false)
    (hcb : strLtB c b = false) : strLtB c a = false := by
  by_contra hcon
  have hca : strLtB c a = true := by
    cases hx : strLtB c a
    · exact absurd hx hcon
    · rfl
  by_cases hbc : strLtB b c = true
  · have := strLtB_trans b c a hbc hca
    rw [hba] at this
    exact absurd this (by simp)
  · have hbc2 : strLtB b c = false := by
      cases hx : strLtB b c
      · rfl
      · exact absurd hx hbc
    have : c = b := strLtB_eq_of_not c b hcb hbc2
    subst this
    rw [hba] at hca
    exact absurd hca (by simp)

theorem syncStep_newest (cfg : SyncCfg)
    (acc : List Str × List StyleExample × Str) (t : ApiTweet) :
    strLtB (syncStep cfg acc t).2.2 acc.2.2 = false ∧
    ((syncStep cfg acc t).2.2 = acc.2.2 ∨
     t.createdAt = some (syncStep cfg acc t).2.2) := by
  unfold syncStep
  dsimp only
  split
  · exact ⟨strLtB_irrefl _, Or.inl rfl⟩
  · split
    · exact ⟨strLtB_irrefl _, Or.inl rfl⟩
    · split
      · exact ⟨strLtB_irrefl _, Or.inl rfl⟩
      · split
        · exact ⟨strLtB_irrefl _, Or.inl rfl⟩
        · cases hca : t.createdAt with
          | none => exact ⟨strLtB_irrefl _, Or.inl rfl⟩
          | some c =>
            dsimp only
            split
            case isTrue hcc =>
              exact ⟨strLtB_asymm hcc.2, Or.inr rfl⟩
            case isFalse =>
              exact ⟨strLtB_irrefl _, Or.inl rfl⟩

theorem processTweets_newest (cfg : SyncCfg) :
    ∀ (ts : List ApiTweet) (acc : List Str × List StyleExample × Str),
      strLtB (ts.foldl (syncStep cfg) acc).2.2 acc.2.2 = false ∧
      ((ts.foldl (syncStep cfg) acc).2.2 = acc.2.2 ∨
       ∃ t ∈ ts, t.createdAt = some (ts.foldl (syncStep cfg) acc).2.2) := by
  intro ts
  induction ts with
  | nil => intro acc; exact ⟨strLtB_irrefl _, Or.inl rfl⟩
  | cons t ts ih =>
    intro acc
    rw [List.foldl_cons]
    obtain ⟨hs1, hs2⟩ := syncStep_newest cfg acc t
    obtain ⟨hi1, hi2⟩ := ih (syncStep cfg acc t)
    refine ⟨strGeB_trans hs1 hi1, ?_⟩
    rcases hi2 with he | ⟨t2, ht2, hc2⟩
    · rw [he]
      rcases hs2 with he2 | hc
      · exact Or.inl he2
      · exact Or.inr ⟨t, by simp, hc⟩
    · exact Or.inr ⟨t2, List.mem_cons_of_mem t ht2, hc2⟩

/-- C5: when the incremental sync produces no surviving new examples,
`sync_tweets` returns without touching the output lines or the persisted
state; otherwise it appends (never overwrites) the new example lines and
persists `max observed created_at + 1 second`, falling back to the raw
maximum on a parse failure; and that maximum is never below the starting
checkpoint and, unless it equals it, is the `created_at` of one of the
fetched tweets. -/
theorem sync_effects_C5 (cfg : SyncCfg) (outLines : List OutLine)
    (st : Option Str) (fetched : List ApiTweet) :
    ((processTweets cfg (scanIds outLines) (startOf st) fetched).2.1 = [] →
      syncTweets cfg outLines st fetched = (outLines, st)) ∧
    ((processTweets cfg (scanIds outLines) (startOf st) fetched).2.1 ≠ [] →
      (syncTweets cfg outLines st fetched).1 =
        outLines ++
          ((processTweets cfg (scanIds outLines) (startOf st) fetched).2.1.map
            (fun e => some (some e.tweetId))) ∧
      (syncTweets cfg outLines st fetched).2 =
        some ((isoPlusOneSecond
            (processTweets cfg (scanIds outLines) (startOf st) fetched).2.2).getD
          (processTweets cfg (scanIds outLines) (startOf st) fetched).2.2)) ∧
    strLtB (processTweets cfg (scanIds outLines) (startOf st) fetched).2.2
      (startOf st) = false ∧
    ((processTweets cfg (scanIds outLines) (startOf st) fetched).2.2 =
        startOf st ∨
      ∃ t ∈ fetched, t.createdAt =
        some (processTweets cfg (scanIds outLines) (startOf st) fetched).2.2) := by
  refine ⟨?_, ?_, ?_, ?_⟩
  · intro h
    simp only [syncTweets]
    rw [h]
    simp
  · intro h
    have hne :
        ¬ (processTweets cfg (scanIds outLines) (startOf st)
            fetched).2.1.isEmpty = true := by
      simp only [List.isEmpty_iff]
      exact h
    have hEq : syncTweets cfg outLines st fetched =
        (outLines ++
           ((processTweets cfg (scanIds outLines) (startOf st) fetched).2.1.map
             (fun e => some (some e.tweetId))),
         some (match isoPlusOneSecond
                 (processTweets cfg (scanIds outLines) (startOf st)
                   fetched).2.2 with
               | some s => s
               | none =>
                 (processTweets cfg (scanIds outLines) (startOf st)
                   fetched).2.2)) := by
      simp only [syncTweets]
      rw [if_neg hne]
    refine ⟨by rw [hEq], ?_⟩
    rw [hEq]
    dsimp only
    cases hio : isoPlusOneSecond
        (processTweets cfg (scanIds outLines) (startOf st) fetched).2.2
    · rfl
    · rfl
  · exact (processTweets_newest cfg fetched
      (scanIds outLines, [], startOf st)).1
  · exact (processTweets_newest cfg fetched
      (scanIds outLines, [], startOf st)).2

theorem sync_effects_C5_witness :
    syncTweets ⟨1, [], false, "assistant".toList⟩
        [some (some "1".toList)] none [] =
      ([some (some "1".toList)], none) ∧
    (syncTweets ⟨1, [], false, "assistant".toList⟩ []
        (some "2024-06-01T00:00:00Z".toList)
        [⟨some "2".toList, "hello world".toList,
          some "2024-06-02T00:00:00Z".toList, none, false⟩]).2 =
      some "2024-06-02T00:00:01Z".toList := by
  constructor
  · exact (sync_effects_C5 ⟨1, [], false, "assistant".toList⟩
      [some (some "1".toList)] none []).1 (by decide)
  · have h := ((sync_effects_C5 ⟨1, [], false, "assistant".toList⟩ []
      (some "2024-06-01T00:00:00Z".toList)
      [⟨some "2".toList, "hello world".toList,
        some "2024-06-02T00:00:00Z".toList, none, false⟩]).2.1
      (by decide)).2
    rw [h]
    decide

end LoraSftuner
